import Mathlib

/-
  Verification development for the task/user consistency engine
  (Express routes `routes/tasks.js` and `routes/users.js` over two Mongo
  collections, plus the Mongoose task schema).

  The routes are shallowly embedded as pure functions over an explicit
  `State` holding the two document collections.  Store primitives
  (`findById`, `save`, `deleteOne`, `updateMany`) are modelled as list
  lookups and list rewrites; `save` replaces the document with the same
  `_id`, `updateMany` maps a patch over every matching document.
  Fresh `_id` values minted by the store at insertion are passed in as an
  explicit argument, with freshness a hypothesis where a theorem needs it.

  Conventions used in the embedding:
  * ids and all scalar fields are `String`s; dates are kept as opaque
    strings (no arithmetic on them occurs in the routes);
  * request-body fields whose handlers test presence with
    `hasOwnProperty` / `!== undefined` / `Array.isArray` are `Option`s
    (`none` = field absent from the JSON body);
  * request-body fields whose handlers test plain truthiness (`!name`)
    are `String`s with `""` standing for absent-or-empty;
  * `mongoose.Types.ObjectId.isValid` is external library code; only its
    Boolean verdict reaches the routes, modelled as a 24-character check
    (the hex-string form of an ObjectId);
  * store-level failures (broken connection, the unique-email index) are
    outside the routes' own logic and are not modelled; the errors
    modelled are exactly the ones the route code itself returns.
-/

namespace TaskMgr

/-- A task document, after `models/task.js` (`TaskSchema`). -/
structure Task where
  id : String
  name : String
  description : String
  deadline : String
  completed : Bool
  assignedUser : String
  assignedUserName : String
deriving DecidableEq, Repr

/-- A user document: `_id`, `name`, `email`, `pendingTasks`. -/
structure User where
  id : String
  name : String
  email : String
  pendingTasks : List String
deriving DecidableEq, Repr

/-- The two collections backing the routes. -/
structure State where
  tasks : List Task
  users : List User
deriving DecidableEq, Repr

/-- The distinct error responses produced by the route handlers,
tagged by the spec's error taxonomy where one applies. -/
inductive ErrKind where
  /-- 400 Invalid task ID (malformed ObjectId). -/
  | invalidId
  /-- 400 Missing required field(s) on task update; carries the
  `missingFields` list the handler interpolated into the message. -/
  | missingFields (fields : List String)
  /-- 404 Task/User not found (`NotFoundError`). -/
  | notFound
  /-- 400 Completed tasks cannot be modified (`ImmutableError`). -/
  | immutable
  /-- 400 Task ID cannot be modified. -/
  | idImmutable
  /-- 400 Assigned user not found (`ReferenceError`). -/
  | userNotFound
  /-- 400 assignedUserName does not match the user's actual name
  (`ValidationError`). -/
  | nameMismatch
  /-- 400 Missing required fields: name and deadline (task create). -/
  | missingNameDeadline
  /-- 400 Missing required fields: name and email (user create). -/
  | missingNameEmail
  /-- 400 Task `tid` does not exist (`ReferenceError`, user update). -/
  | taskNotExist (tid : String)
  /-- 500 Task `tid` is assigned to another user (user update). -/
  | taskAssignedOther (tid : String)
deriving DecidableEq, Repr

/-- Result of one route handler: the error it responded with (if any)
and the state of the store when the response was sent.  A failed call
may leave a partially-written state: the routes perform multi-document
sequences with no transaction. -/
structure Res where
  err : Option ErrKind
  st : State
deriving DecidableEq, Repr

/-- `Task.findById`, as a first-match lookup. -/
def findTask (s : State) (i : String) : Option Task :=
  s.tasks.find? (fun t => t.id == i)

/-- `User.findById`, as a first-match lookup. -/
def findUser (s : State) (i : String) : Option User :=
  s.users.find? (fun u => u.id == i)

/-- `task.save()` on an existing document: replace the document whose
`_id` matches. -/
def saveTask (s : State) (t : Task) : State :=
  ⟨s.tasks.map (fun x => if x.id = t.id then t else x), s.users⟩

/-- `user.save()` on an existing document: replace the document whose
`_id` matches. -/
def saveUser (s : State) (u : User) : State :=
  ⟨s.tasks, s.users.map (fun x => if x.id = u.id then u else x)⟩

/-- Mongoose array `addToSet`: append unless already present. -/
def addToSet (x : String) (l : List String) : List String :=
  if x ∈ l then l else l ++ [x]

/-- `mongoose.Types.ObjectId.isValid` (external library): the routes
only consume its Boolean verdict; modelled as the 24-hex-character
string form of an ObjectId. -/
def validObjectId (s : String) : Bool :=
  s.length == 24

/-- Body of `POST /tasks`.  `name`, `deadline`, `assignedUser` are
checked for truthiness only (`""` = absent or empty); the handler reads
presence of `assignedUserName` with `hasOwnProperty`; `completed` is the
Boolean the handler derives via
`String(req.body.completed).toLowerCase() === 'true'`. -/
structure TaskPostBody where
  name : String
  description : String
  deadline : String
  completed : Bool
  assignedUser : String
  assignedUserName : Option String
deriving DecidableEq, Repr

/-- Body of `PUT /tasks/:taskId`.  Every field is presence-tested by the
handler (`in req.body`, `hasOwnProperty`, `!== undefined`,
`typeof === 'boolean'`), so every field is an `Option`. -/
structure TaskPutBody where
  idField : Option String
  name : Option String
  description : Option String
  deadline : Option String
  completed : Option Bool
  assignedUser : Option String
  assignedUserName : Option String
deriving DecidableEq, Repr

/-- Body of `POST /users`.  The handler destructures only `name` and
`email`; a `pendingTasks` array in the request is carried here so that
claims about it can be stated, but the handler never reads it. -/
structure UserPostBody where
  name : String
  email : String
  pendingTasks : List String
deriving DecidableEq, Repr

/-- Body of `PUT /users/:userId`.  `name`/`email` are
`!== undefined`-tested; `pendingTasks` is `Array.isArray`-tested. -/
structure UserPutBody where
  name : Option String
  email : Option String
  pendingTasks : Option (List String)
deriving DecidableEq, Repr

/-! ### POST /tasks (tasks.js, `tasksRoute.post`) -/

/-- Tail of task creation once an assigned user has been resolved and
the name hint validated: build the document, insert it, and add its id
to the user's `pendingTasks` unless the task is completed. -/
def taskCreateAssigned (s : State) (freshId : String) (b : TaskPostBody)
    (v : User) (finalName : String) : Res :=
  let t : Task := ⟨freshId, b.name, b.description, b.deadline, b.completed, v.id, finalName⟩
  let s1 : State := ⟨s.tasks ++ [t], s.users⟩
  if b.completed then ⟨none, s1⟩
  else ⟨none, saveUser s1 ⟨v.id, v.name, v.email, addToSet freshId v.pendingTasks⟩⟩

/-- `POST /tasks`: validate `name`/`deadline`, resolve `assignedUser`,
validate the `assignedUserName` hint (empty string = not supplied),
insert the task, then add it to the assignee's `pendingTasks` if not
completed.  An unassigned task gets the schema default
`assignedUserName = "unassigned"`. -/
def taskCreate (s : State) (freshId : String) (b : TaskPostBody) : Res :=
  if b.name = "" ∨ b.deadline = "" then ⟨some ErrKind.missingNameDeadline, s⟩
  else if b.assignedUser = "" then
    ⟨none, ⟨s.tasks ++ [⟨freshId, b.name, b.description, b.deadline, b.completed, "", "unassigned"⟩], s.users⟩⟩
  else
    match findUser s b.assignedUser with
    | none => ⟨some ErrKind.userNotFound, s⟩
    | some v =>
      match b.assignedUserName with
      | some nm =>
        if nm = "" then taskCreateAssigned s freshId b v v.name
        else if v.name = nm then taskCreateAssigned s freshId b v nm
        else ⟨some ErrKind.nameMismatch, s⟩
      | none => taskCreateAssigned s freshId b v v.name

/-! ### PUT /tasks/:taskId (tasks.js, `tasksRouteById.put`) -/

/-- The task document after the editable-field updates of task update
(`name`, `description`, `deadline` if present, `completed` if Boolean);
`task` already carries any mutation made by the reassignment block. -/
def updatedTask (b : TaskPutBody) (task : Task) : Task :=
  ⟨task.id, b.name.getD task.name, b.description.getD task.description,
    b.deadline.getD task.deadline, b.completed.getD task.completed,
    task.assignedUser, task.assignedUserName⟩

/-- The "maintain pendingTasks consistency" block of task update, run
on the store after the task save: if the assignee changed and a new
assignee exists, add the id to that user's set unless completed; if it
did not change, self-heal the current assignee's set. -/
def finishPending (s2 : State) (taskId : String) (t' : Task)
    (iuc : Bool) (nau : Option User) : State :=
  if iuc then
    match nau with
    | some nu =>
      if ¬t'.completed ∧ taskId ∉ nu.pendingTasks then
        saveUser s2 ⟨nu.id, nu.name, nu.email, addToSet taskId nu.pendingTasks⟩
      else s2
    | none => s2
  else
    if t'.assignedUser ≠ "" ∧ ¬t'.completed then
      match findUser s2 t'.assignedUser with
      | some cu =>
        if taskId ∈ cu.pendingTasks then s2
        else saveUser s2 ⟨cu.id, cu.name, cu.email, addToSet taskId cu.pendingTasks⟩
      | none => s2
    else s2

/-- The "if task is marked complete, remove from pendingTasks" block of
task update. -/
def finishComplete (s3 : State) (t' : Task) (icc : Bool) : State :=
  if icc ∧ t'.completed ∧ t'.assignedUser ≠ "" then
    match findUser s3 t'.assignedUser with
    | some au => saveUser s3 ⟨au.id, au.name, au.email,
        au.pendingTasks.filter (fun x => x ≠ t'.id)⟩
    | none => s3
  else s3

/-- Tail of task update after the reassignment block: apply the other
editable fields, save the task, run the two `pendingTasks` maintenance
branches, then the completion-removal branch.  `task` carries the
mutations made by the reassignment block; `iuc` is `isUserChanged`,
`nau` is `newAssignedUser` (fetched before the save), `icc` is
`isCompletedChanged`. -/
def taskUpdateFinish (s : State) (taskId : String) (b : TaskPutBody)
    (task : Task) (iuc : Bool) (nau : Option User) (icc : Bool) : Res :=
  let t' := updatedTask b task
  ⟨none, finishComplete (finishPending (saveTask s t') taskId t' iuc nau) t' icc⟩

/-- Removal of the task id from the old assignee's `pendingTasks`,
performed (and persisted) at the start of the changed-assignee branch,
before the new assignee is even resolved, so a failed resolution leaves
this write behind. -/
def detachOld (s : State) (task : Task) : State :=
  if task.assignedUser ≠ "" then
    match findUser s task.assignedUser with
    | some ou => saveUser s ⟨ou.id, ou.name, ou.email,
        ou.pendingTasks.filter (fun x => x ≠ task.id)⟩
    | none => s
  else s

/-- Reassignment block of task update: runs only when the body contains
an `assignedUser` field whose value differs from the stored one; then
the old assignee is detached, the new one resolved and the name hint
validated, before falling through to the save/maintenance tail. -/
def taskUpdateAssign (s : State) (taskId : String) (b : TaskPutBody)
    (task : Task) (icc : Bool) : Res :=
  match b.assignedUser with
  | none => taskUpdateFinish s taskId b task false none icc
  | some au =>
    if au = task.assignedUser then taskUpdateFinish s taskId b task false none icc
    else
      let s1 := detachOld s task
      if au = "" then
        taskUpdateFinish s1 taskId b
          ⟨task.id, task.name, task.description, task.deadline, task.completed, "", "unassigned"⟩
          true none icc
      else
        match findUser s1 au with
        | none => ⟨some ErrKind.userNotFound, s1⟩
        | some nu =>
          match b.assignedUserName with
          | some nm =>
            if nm = "" then
              taskUpdateFinish s1 taskId b
                ⟨task.id, task.name, task.description, task.deadline, task.completed, au, nu.name⟩
                true (some nu) icc
            else if nu.name = nm then
              taskUpdateFinish s1 taskId b
                ⟨task.id, task.name, task.description, task.deadline, task.completed, au, nm⟩
                true (some nu) icc
            else ⟨some ErrKind.nameMismatch, s1⟩
          | none =>
            taskUpdateFinish s1 taskId b
              ⟨task.id, task.name, task.description, task.deadline, task.completed, au, nu.name⟩
              true (some nu) icc

/-- `isCompletedChanged`: the body carries a Boolean `completed` that
differs from the stored one. -/
def taskIcc (b : TaskPutBody) (task : Task) : Bool :=
  match b.completed with
  | some c => c ≠ task.completed
  | none => false

/-- `PUT /tasks/:taskId`: ObjectId validity, required-field presence
(`name`, `deadline`), lookup, completed-task immutability, `_id`
immutability, then the reassignment block and the save/maintenance
tail. -/
def taskUpdate (s : State) (taskId : String) (b : TaskPutBody) : Res :=
  if ¬validObjectId taskId then ⟨some ErrKind.invalidId, s⟩
  else
    let missing := (if b.name = none then ["name"] else []) ++
                   (if b.deadline = none then ["deadline"] else [])
    if missing ≠ [] then ⟨some (ErrKind.missingFields missing), s⟩
    else
      match findTask s taskId with
      | none => ⟨some ErrKind.notFound, s⟩
      | some task =>
        if task.completed then ⟨some ErrKind.immutable, s⟩
        else if (match b.idField with
                 | some i => i ≠ "" ∧ i ≠ taskId
                 | none => false : Bool) then ⟨some ErrKind.idImmutable, s⟩
        else
          taskUpdateAssign s taskId b task (taskIcc b task)

/-! ### DELETE /tasks/:taskId (tasks.js, `tasksRouteById.delete`) -/

/-- `DELETE /tasks/:taskId`: if the task is assigned, filter its id out
of the assignee's `pendingTasks`, then delete the task document. -/
def taskDelete (s : State) (taskId : String) : Res :=
  match findTask s taskId with
  | none => ⟨some ErrKind.notFound, s⟩
  | some task =>
    let s1 := detachOld s task
    ⟨none, ⟨s1.tasks.filter (fun t => t.id ≠ task.id), s1.users⟩⟩

/-! ### POST /users (users.js, `usersRoute.post`) -/

/-- `POST /users`: require `name` and `email`, then insert the user with
an empty `pendingTasks`.  The handler never reads `b.pendingTasks`.
(The unique-email index is store-level and not modelled.) -/
def userCreate (s : State) (freshId : String) (b : UserPostBody) : Res :=
  if b.name = "" ∨ b.email = "" then ⟨some ErrKind.missingNameEmail, s⟩
  else ⟨none, ⟨s.tasks, s.users ++ [⟨freshId, b.name, b.email, []⟩]⟩⟩

/-! ### PUT /users/:userId (users.js, `usersRouteById.put`) -/

/-- An unassigned task claimed for the user during user update:
`task.assignedUser = userId; task.assignedUserName = user.name`. -/
def claimTask (userId uname : String) (t : Task) : Task :=
  ⟨t.id, t.name, t.description, t.deadline, t.completed, userId, uname⟩

/-- Loop body of user update over the supplied `pendingTasks` array:
each id must resolve; a task owned by a different user is an error; an
unassigned task is claimed for this user and saved immediately; `acc`
accumulates the `validTasks` set.  On error the loop stops with the
store as it stands (earlier task saves are kept; the user is unsaved). -/
def procPending (s : State) (userId uname : String) (l : List String)
    (acc : List String) : Except (ErrKind × State) (State × List String) :=
  match l with
  | [] => Except.ok (s, acc)
  | tid :: rest =>
    match findTask s tid with
    | none => Except.error (ErrKind.taskNotExist tid, s)
    | some task =>
      if task.assignedUser ≠ "" ∧ task.assignedUser ≠ userId then
        Except.error (ErrKind.taskAssignedOther tid, s)
      else
        let s' := if task.assignedUser = "" then saveTask s (claimTask userId uname task)
          else s
        procPending s' userId uname rest (addToSet tid acc)

/-- The `$set` patch of the two unassignment `updateMany` calls. -/
def unassignPatch (t : Task) : Task :=
  ⟨t.id, t.name, t.description, t.deadline, t.completed, "", "unassigned"⟩

/-- `PUT /users/:userId`: lookup, apply `name`/`email` if present;
if `pendingTasks` is an array, run the validation/claim loop, bulk
unassign the dropped ids (`_id ∈ removed ∧ assignedUser = userId`),
and store the new set; save the user; finally, if `name` changed, bulk
rewrite `assignedUserName` on every task assigned to this user. -/
def userUpdate (s : State) (userId : String) (b : UserPutBody) : Res :=
  match findUser s userId with
  | none => ⟨some ErrKind.notFound, s⟩
  | some user =>
    let oldName := user.name
    let oldPending := user.pendingTasks
    let u1 : User := ⟨user.id, b.name.getD user.name, b.email.getD user.email, user.pendingTasks⟩
    let afterPending : Except (ErrKind × State) (State × User) :=
      match b.pendingTasks with
      | some l =>
        match procPending s userId u1.name l [] with
        | Except.error e => Except.error e
        | Except.ok (s1, validTasks) =>
          let removed := oldPending.filter (fun x => x ∉ validTasks)
          let s2 : State := ⟨s1.tasks.map (fun t =>
              if t.id ∈ removed ∧ t.assignedUser = userId then unassignPatch t else t),
            s1.users⟩
          Except.ok (s2, ⟨u1.id, u1.name, u1.email, validTasks⟩)
      | none => Except.ok (s, u1)
    match afterPending with
    | Except.error (e, s') => ⟨some e, s'⟩
    | Except.ok (s2, u2) =>
      let s3 := saveUser s2 u2
      let s4 :=
        match b.name with
        | some n =>
          if n ≠ oldName then
            ⟨s3.tasks.map (fun t =>
              if t.assignedUser = userId then
                ⟨t.id, t.name, t.description, t.deadline, t.completed, t.assignedUser, n⟩
              else t), s3.users⟩
          else s3
        | none => s3
      ⟨none, s4⟩

/-! ### DELETE /users/:userId (users.js, `usersRouteById.delete`) -/

/-- `DELETE /users/:userId`: delete the user, then bulk unassign every
task whose `assignedUser` is this user. -/
def userDelete (s : State) (userId : String) : Res :=
  match findUser s userId with
  | none => ⟨some ErrKind.notFound, s⟩
  | some u =>
    ⟨none, ⟨s.tasks.map (fun t => if t.assignedUser = userId then unassignPatch t else t),
      s.users.filter (fun x => x.id ≠ u.id)⟩⟩

/-! ### The engine's six operations -/

/-- One invocation of the consistency engine: the six mutating routes. -/
inductive Op where
  | createTask (freshId : String) (b : TaskPostBody)
  | updateTask (taskId : String) (b : TaskPutBody)
  | deleteTask (taskId : String)
  | createUser (freshId : String) (b : UserPostBody)
  | updateUser (userId : String) (b : UserPutBody)
  | deleteUser (userId : String)
deriving DecidableEq, Repr

/-- Dispatch an operation against the store. -/
def applyOp (s : State) : Op → Res
  | Op.createTask f b => taskCreate s f b
  | Op.updateTask i b => taskUpdate s i b
  | Op.deleteTask i => taskDelete s i
  | Op.createUser f b => userCreate s f b
  | Op.updateUser i b => userUpdate s i b
  | Op.deleteUser i => userDelete s i

/-- The id the store mints at insertion is fresh: nonempty, unused as a
document id, and not referenced anywhere. -/
def freshId (s : State) (i : String) : Prop :=
  i ≠ "" ∧ (∀ t ∈ s.tasks, t.id ≠ i ∧ t.assignedUser ≠ i) ∧
    (∀ u ∈ s.users, u.id ≠ i ∧ i ∉ u.pendingTasks)

/-- Store-minted ids in an operation are fresh. -/
def opOK (s : State) : Op → Prop
  | Op.createTask f _ => freshId s f
  | Op.createUser f _ => freshId s f
  | _ => True

/-- Store well-formedness: document ids are unique per collection. -/
def WF (s : State) : Prop :=
  (s.tasks.map Task.id).Nodup ∧ (s.users.map User.id).Nodup

/-- Invariant 1 of the spec: a not-completed task with a non-empty
`assignedUser` is listed in that user's `pendingTasks`. -/
def inv1 (s : State) : Prop :=
  ∀ t ∈ s.tasks, t.assignedUser ≠ "" → t.completed = false →
    ∀ u ∈ s.users, u.id = t.assignedUser → t.id ∈ u.pendingTasks

instance (s : State) (i : String) : Decidable (freshId s i) := by
  unfold freshId; exact inferInstance

instance (s : State) (op : Op) : Decidable (opOK s op) := by
  unfold opOK; cases op <;> exact inferInstance

instance (s : State) : Decidable (WF s) := by
  unfold WF; exact inferInstance

instance (s : State) : Decidable (inv1 s) := by
  unfold inv1; exact inferInstance

/-- Relation between the store before user update's validation loop and
the store part-way through it: users untouched, and every id looks up
either to its old document or, for an id whose old document was
unassigned, to that document claimed for `userId`. -/
def loopFrame (userId uname : String) (s s' : State) : Prop :=
  s'.users = s.users ∧
  ∀ i, findTask s' i = findTask s i ∨
    (∃ t0, findTask s i = some t0 ∧ t0.assignedUser = "" ∧
      findTask s' i = some (claimTask userId uname t0))

/-! ### Concrete documents and stores used by witnesses and counterexamples -/

/-- A 24-character task id. -/
def tidA : String := "aaaaaaaaaaaaaaaaaaaaaaaa"

/-- A second 24-character task id. -/
def tidB : String := "ffffffffffffffffffffffff"

/-- A 24-character user id. -/
def uidA : String := "bbbbbbbbbbbbbbbbbbbbbbbb"

/-- A second 24-character user id. -/
def uidB : String := "cccccccccccccccccccccccc"

/-- A fresh 24-character id for inserts. -/
def freshA : String := "dddddddddddddddddddddddd"

/-- Store with one pending task assigned to Ann, plus Bob. -/
def stA : State :=
  ⟨[⟨tidA, "Ship", "", "D", false, uidA, "Ann"⟩],
   [⟨uidA, "Ann", "a@x.com", [tidA]⟩, ⟨uidB, "Bob", "b@x.com", []⟩]⟩

/-- Store with one unassigned, not-completed task and no users. -/
def stB : State :=
  ⟨[⟨tidA, "Ship", "", "D", false, "", "unassigned"⟩], []⟩

/-- Store with one completed, unassigned task and one user. -/
def stC : State :=
  ⟨[⟨tidA, "Ship", "", "D", true, "", "unassigned"⟩],
   [⟨uidA, "Ann", "a@x.com", []⟩]⟩

/-- Store with one completed task assigned to nobody in particular and
one user; used for completed-task immutability. -/
def stD : State :=
  ⟨[⟨tidA, "Ship", "", "D", true, uidA, "Ann"⟩],
   [⟨uidA, "Ann", "a@x.com", []⟩]⟩

/-- Body for `PUT /tasks/:id` carrying only the required fields. -/
def putNameDeadline : TaskPutBody :=
  ⟨none, some "Ship", none, some "D", none, none, none⟩

/-- Body for `PUT /tasks/:id` marking the task completed. -/
def putComplete : TaskPutBody :=
  ⟨none, some "Ship", none, some "D", some true, none, none⟩

/-! ### Basic lemmas about the store primitives -/

theorem findTask_mem {s : State} {i : String} {t : Task}
    (h : findTask s i = some t) : t ∈ s.tasks ∧ t.id = i := by
  unfold findTask at h
  refine ⟨List.mem_of_find?_eq_some h, ?_⟩
  have h2 := List.find?_some h
  simpa using h2

theorem findUser_mem {s : State} {i : String} {u : User}
    (h : findUser s i = some u) : u ∈ s.users ∧ u.id = i := by
  unfold findUser at h
  refine ⟨List.mem_of_find?_eq_some h, ?_⟩
  have h2 := List.find?_some h
  simpa using h2

theorem findTask_none {s : State} {i : String}
    (h : findTask s i = none) : ∀ t ∈ s.tasks, t.id ≠ i := by
  intro t ht
  unfold findTask at h
  have := List.find?_eq_none.mp h t ht
  simpa using this

theorem findUser_none {s : State} {i : String}
    (h : findUser s i = none) : ∀ u ∈ s.users, u.id ≠ i := by
  intro u hu
  unfold findUser at h
  have := List.find?_eq_none.mp h u hu
  simpa using this

/-- With unique user ids, any stored user sharing the id of a looked-up
user is that user. -/
theorem findUser_unique {s : State} {i : String} {u u' : User}
    (hn : (s.users.map User.id).Nodup) (h : findUser s i = some u)
    (hm : u' ∈ s.users) (hi : u'.id = i) : u' = u := by
  obtain ⟨humem, huid⟩ := findUser_mem h
  exact List.inj_on_of_nodup_map hn hm humem (by rw [hi, huid])

theorem mem_addToSet_self (x : String) (l : List String) : x ∈ addToSet x l := by
  unfold addToSet
  split
  · assumption
  · simp

theorem mem_addToSet_of_mem {y : String} (x : String) {l : List String}
    (h : y ∈ l) : y ∈ addToSet x l := by
  unfold addToSet
  split
  · exact h
  · exact List.mem_append_left _ h

theorem saveTask_users (s : State) (t : Task) : (saveTask s t).users = s.users := rfl

theorem saveUser_tasks (s : State) (u : User) : (saveUser s u).tasks = s.tasks := rfl

/-- Ids of the task collection are unchanged by a save. -/
theorem saveTask_ids (s : State) (t : Task) :
    (saveTask s t).tasks.map Task.id = s.tasks.map Task.id := by
  unfold saveTask
  simp only [List.map_map]
  refine List.map_congr_left ?_
  intro x _
  by_cases h : x.id = t.id
  · simp [h]
  · simp [h]

/-- Ids of the user collection are unchanged by a save. -/
theorem saveUser_ids (s : State) (u : User) :
    (saveUser s u).users.map User.id = s.users.map User.id := by
  unfold saveUser
  simp only [List.map_map]
  refine List.map_congr_left ?_
  intro x _
  by_cases h : x.id = u.id
  · simp [h]
  · simp [h]

/-! ### C10: required-field validation precedes the task lookup -/

/-- C10: a `PUT /tasks/:id` body that omits `name` or `deadline` fails
with the validation error naming exactly the omitted required fields,
and the store is untouched; the statement holds for every store, in
particular one where no task has the given id, so a nonexistent id
still yields this validation error rather than the not-found error. -/
theorem taskUpdate_missing_fields_first (s : State) (tid : String) (b : TaskPutBody)
    (hv : validObjectId tid = true) (hm : b.name = none ∨ b.deadline = none) :
    taskUpdate s tid b = ⟨some (ErrKind.missingFields
      ((if b.name = none then ["name"] else []) ++
       (if b.deadline = none then ["deadline"] else []))), s⟩ := by
  unfold taskUpdate
  rw [if_neg (by simp [hv])]
  rw [if_pos]
  rcases hm with h | h <;> simp [h]

/-- Witness for C10: a body missing `name`, sent for an id no task has;
the result is the missing-fields error, not the not-found error. -/
theorem taskUpdate_missing_fields_first_witness :
    validObjectId tidA = true ∧ findTask stC tidB = none ∧
    taskUpdate stC tidB ⟨none, none, none, some "D", none, none, none⟩ =
      ⟨some (ErrKind.missingFields ["name"]), stC⟩ := by
  refine ⟨by decide, by decide, ?_⟩
  have h := taskUpdate_missing_fields_first stC tidB
    ⟨none, none, none, some "D", none, none, none⟩ (by decide) (Or.inl rfl)
  simpa using h

/-! ### C5: completed tasks are immutable via update, deletable via delete -/

/-- C5: a `PUT /tasks/:id` call on an existing, already-completed task
fails with the immutability error no matter what field values the body
carries (provided the body passes the earlier required-field presence
check, i.e. contains `name` and `deadline`), and leaves the store
exactly as it was; a `DELETE /tasks/:id` on the same task succeeds. -/
theorem taskUpdate_completed_immutable (s : State) (tid : String) (b : TaskPutBody)
    (task : Task) (hv : validObjectId tid = true)
    (hn : b.name ≠ none) (hd : b.deadline ≠ none)
    (hf : findTask s tid = some task) (hc : task.completed = true) :
    taskUpdate s tid b = ⟨some ErrKind.immutable, s⟩ ∧
    (taskDelete s tid).err = none := by
  constructor
  · unfold taskUpdate
    rw [if_neg (by simp [hv])]
    rw [if_neg (by simp [hn, hd])]
    · rw [hf]
      simp [hc]
  · unfold taskDelete
    rw [hf]

/-- Witness for C5: updating the completed task of `stD` (changing its
name) fails with the immutability error and leaves the store unchanged,
while deleting it succeeds. -/
theorem taskUpdate_completed_immutable_witness :
    validObjectId tidA = true ∧ findTask stD tidA = some ⟨tidA, "Ship", "", "D", true, uidA, "Ann"⟩ ∧
    taskUpdate stD tidA ⟨none, some "Other", none, some "D", none, none, none⟩ =
      ⟨some ErrKind.immutable, stD⟩ ∧
    (taskDelete stD tidA).err = none := by
  refine ⟨by decide, by decide, ?_⟩
  exact taskUpdate_completed_immutable stD tidA
    ⟨none, some "Other", none, some "D", none, none, none⟩
    ⟨tidA, "Ship", "", "D", true, uidA, "Ann"⟩
    (by decide) (by decide) (by decide) (by decide) rfl

/-! ### C6: the assignedUserName hint on task creation -/

/-- C6: on `POST /tasks` with an `assignedUser` that resolves to user
`v`: a supplied, non-empty `assignedUserName` differing from `v.name`
fails with the name-mismatch validation error and leaves the store
unchanged; an absent or empty-string `assignedUserName` falls back to
`v.name`, the call succeeds and the persisted task carries `v`'s true
name. -/
theorem taskCreate_name_hint (s : State) (f : String) (b : TaskPostBody) (v : User)
    (hn : b.name ≠ "") (hd : b.deadline ≠ "") (ha : b.assignedUser ≠ "")
    (hu : findUser s b.assignedUser = some v) :
    (∀ nm, b.assignedUserName = some nm → nm ≠ "" → nm ≠ v.name →
        taskCreate s f b = ⟨some ErrKind.nameMismatch, s⟩) ∧
    ((b.assignedUserName = none ∨ b.assignedUserName = some "") →
        (taskCreate s f b).err = none ∧
        (taskCreate s f b).st.tasks = s.tasks ++
          [⟨f, b.name, b.description, b.deadline, b.completed, v.id, v.name⟩]) := by
  have hbase : ∀ fn, ((taskCreateAssigned s f b v fn).err = none ∧
      (taskCreateAssigned s f b v fn).st.tasks = s.tasks ++
        [⟨f, b.name, b.description, b.deadline, b.completed, v.id, fn⟩]) := by
    intro fn
    unfold taskCreateAssigned
    split <;> simp [saveUser_tasks]
  constructor
  · intro nm hnm hne hnev
    unfold taskCreate
    rw [if_neg (by simp [hn, hd]), if_neg ha, hu, hnm]
    dsimp only
    rw [if_neg hne, if_neg (fun h => hnev h.symm)]
  · intro habs
    unfold taskCreate
    rw [if_neg (by simp [hn, hd]), if_neg ha, hu]
    rcases habs with h | h
    · rw [h]
      exact hbase v.name
    · rw [h]
      dsimp only
      rw [if_pos rfl]
      exact hbase v.name

/-- Witness for C6: creating a task assigned to Bob with the wrong name
hint fails with the mismatch error; with an empty-string hint it
succeeds and the task carries Bob's true name. -/
theorem taskCreate_name_hint_witness :
    findUser stA uidB = some ⟨uidB, "Bob", "b@x.com", []⟩ ∧
    taskCreate stA freshA ⟨"New", "", "D2", false, uidB, some "Carl"⟩ =
      ⟨some ErrKind.nameMismatch, stA⟩ ∧
    (taskCreate stA freshA ⟨"New", "", "D2", false, uidB, some ""⟩).err = none ∧
    (taskCreate stA freshA ⟨"New", "", "D2", false, uidB, some ""⟩).st.tasks =
      stA.tasks ++ [⟨freshA, "New", "", "D2", false, uidB, "Bob"⟩] := by
  refine ⟨by decide, ?_, ?_⟩
  · exact (taskCreate_name_hint stA freshA ⟨"New", "", "D2", false, uidB, some "Carl"⟩
      ⟨uidB, "Bob", "b@x.com", []⟩ (by decide) (by decide) (by decide) (by decide)).1
      "Carl" rfl (by decide) (by decide)
  · have h := (taskCreate_name_hint stA freshA ⟨"New", "", "D2", false, uidB, some ""⟩
      ⟨uidB, "Bob", "b@x.com", []⟩ (by decide) (by decide) (by decide) (by decide)).2
      (Or.inr rfl)
    exact h

/-! ### C2: user creation ignores the supplied pendingTasks -/

/-- Counterexample to C2: the store holds one existing, not-completed
task and the user-create body supplies exactly that task id in
`pendingTasks`; the call succeeds, yet the persisted user's
`pendingTasks` is empty rather than the supplied list, and the task is
not updated to reference the new user. -/
theorem userCreate_ignores_pendingTasks_cex :
    (userCreate stB freshA ⟨"Ann", "a@x.com", [tidA]⟩).err = none ∧
    (userCreate stB freshA ⟨"Ann", "a@x.com", [tidA]⟩).st =
      ⟨[⟨tidA, "Ship", "", "D", false, "", "unassigned"⟩],
       [⟨freshA, "Ann", "a@x.com", []⟩]⟩ ∧
    ¬ (∃ u ∈ (userCreate stB freshA ⟨"Ann", "a@x.com", [tidA]⟩).st.users,
        u.id = freshA ∧ tidA ∈ u.pendingTasks) ∧
    ¬ (∃ t ∈ (userCreate stB freshA ⟨"Ann", "a@x.com", [tidA]⟩).st.tasks,
        t.assignedUser = freshA) := by
  refine ⟨by decide, by decide, by decide, by decide⟩

/-- C2 (amended): `POST /users` with non-empty `name` and `email`
succeeds and persists the user with an *empty* `pendingTasks`; any
`pendingTasks` supplied in the body is ignored and no task document is
touched. -/
theorem userCreate_amended (s : State) (f : String) (b : UserPostBody)
    (hn : b.name ≠ "") (he : b.email ≠ "") :
    userCreate s f b = ⟨none, ⟨s.tasks, s.users ++ [⟨f, b.name, b.email, []⟩]⟩⟩ := by
  unfold userCreate
  rw [if_neg (by simp [hn, he])]

/-- Witness for C2 (amended): creating Ann over the one-task store
persists her with empty `pendingTasks` and leaves the task alone. -/
theorem userCreate_amended_witness :
    ("Ann" : String) ≠ "" ∧ ("a@x.com" : String) ≠ "" ∧
    userCreate stB freshA ⟨"Ann", "a@x.com", []⟩ =
      ⟨none, ⟨stB.tasks, stB.users ++ [⟨freshA, "Ann", "a@x.com", []⟩]⟩⟩ := by
  exact ⟨by decide, by decide,
    userCreate_amended stB freshA ⟨"Ann", "a@x.com", []⟩ (by decide) (by decide)⟩

theorem findUser_saveTask (s : State) (t : Task) (i : String) :
    findUser (saveTask s t) i = findUser s i := rfl

theorem findTask_saveUser (s : State) (u : User) (i : String) :
    findTask (saveUser s u) i = findTask s i := rfl

/-- A `PUT /tasks/:id` call that passes validation and either omits
`assignedUser` or re-supplies the stored value reaches the
save/maintenance tail with `isUserChanged = false` and no new
assignee. -/
theorem taskUpdate_eq_finish (s : State) (tid : String) (b : TaskPutBody) (task : Task)
    (hv : validObjectId tid = true) (hn : b.name ≠ none) (hd : b.deadline ≠ none)
    (hf : findTask s tid = some task) (hc : task.completed = false) (hid : b.idField = none)
    (hass : b.assignedUser = none ∨ b.assignedUser = some task.assignedUser) :
    taskUpdate s tid b = taskUpdateFinish s tid b task false none (taskIcc b task) := by
  unfold taskUpdate
  rw [if_neg (by simp [hv])]
  rw [if_neg (by simp [hn, hd])]
  · rw [hf]
    dsimp only
    rw [if_neg (by simp [hc])]
    rw [if_neg (by simp [hid])]
    unfold taskUpdateAssign
    rcases hass with h | h
    · rw [h]
    · rw [h]
      dsimp only
      rw [if_pos rfl]

/-- When the task ends up completed, the maintenance block with an
unchanged assignee writes nothing. -/
theorem finishPending_completed (s2 : State) (tid : String) (t' : Task)
    (hc : t'.completed = true) :
    finishPending s2 tid t' false none = s2 := by
  unfold finishPending
  rw [if_neg (by simp)]
  rw [if_neg (by simp [hc])]

/-- The completion-removal block, when it fires and the assignee
resolves, filters the task id out of the assignee's `pendingTasks`. -/
theorem finishComplete_remove (s3 : State) (t' : Task) (au : User)
    (hc : t'.completed = true) (hau : t'.assignedUser ≠ "")
    (hfu : findUser s3 t'.assignedUser = some au) :
    finishComplete s3 t' true = saveUser s3 ⟨au.id, au.name, au.email,
      au.pendingTasks.filter (fun x => x ≠ t'.id)⟩ := by
  unfold finishComplete
  rw [if_pos ⟨rfl, hc, hau⟩, hfu]

/-! ### C8: completing a task removes it from the assignee's pendingTasks -/

/-- C8: a `PUT /tasks/:id` on an existing, not-completed task assigned
to user `u`, with a body that carries the required fields, sets
`completed = true`, and does not reassign (its `assignedUser` field is
absent or re-supplies the stored value), succeeds, and afterwards no
stored user with `u`'s id lists the task in `pendingTasks`. -/
theorem taskUpdate_complete_removes_pending (s : State) (tid : String) (b : TaskPutBody)
    (task : Task) (u : User)
    (hv : validObjectId tid = true) (hn : b.name ≠ none) (hd : b.deadline ≠ none)
    (hid : b.idField = none) (hf : findTask s tid = some task) (hc : task.completed = false)
    (hau : task.assignedUser ≠ "") (hu : findUser s task.assignedUser = some u)
    (hcomp : b.completed = some true)
    (hass : b.assignedUser = none ∨ b.assignedUser = some task.assignedUser) :
    (taskUpdate s tid b).err = none ∧
    ∀ u' ∈ (taskUpdate s tid b).st.users, u'.id = u.id → task.id ∉ u'.pendingTasks := by
  have hdisp := taskUpdate_eq_finish s tid b task hv hn hd hf hc hid hass
  rw [hdisp]
  unfold taskUpdateFinish
  dsimp only
  have ht'c : (updatedTask b task).completed = true := by simp [updatedTask, hcomp]
  have hicc : taskIcc b task = true := by simp [taskIcc, hcomp, hc]
  rw [hicc, finishPending_completed _ _ _ ht'c]
  have hfu : findUser (saveTask s (updatedTask b task)) (updatedTask b task).assignedUser
      = some u := by
    rw [findUser_saveTask]
    exact hu
  rw [finishComplete_remove _ _ u ht'c hau hfu]
  refine ⟨rfl, ?_⟩
  intro u' hmem hid'
  simp only [saveUser, saveTask, List.mem_map] at hmem
  obtain ⟨x, _, hx⟩ := hmem
  by_cases hxi : x.id = u.id
  · rw [if_pos hxi] at hx
    rw [← hx]
    intro hbad
    simp only [List.mem_filter, decide_eq_true_eq] at hbad
    exact hbad.2 rfl
  · rw [if_neg hxi] at hx
    rw [← hx] at hid'
    exact absurd hid' hxi

/-- Witness for C8: completing the task of `stA` (assigned to Ann, who
lists it) succeeds and leaves Ann's `pendingTasks` without the id. -/
theorem taskUpdate_complete_removes_pending_witness :
    findTask stA tidA = some ⟨tidA, "Ship", "", "D", false, uidA, "Ann"⟩ ∧
    findUser stA uidA = some ⟨uidA, "Ann", "a@x.com", [tidA]⟩ ∧
    (taskUpdate stA tidA putComplete).err = none ∧
    ∀ u' ∈ (taskUpdate stA tidA putComplete).st.users, u'.id = uidA → tidA ∉ u'.pendingTasks := by
  refine ⟨by decide, by decide, ?_⟩
  exact taskUpdate_complete_removes_pending stA tidA putComplete
    ⟨tidA, "Ship", "", "D", false, uidA, "Ann"⟩ ⟨uidA, "Ann", "a@x.com", [tidA]⟩
    (by decide) (by decide) (by decide) (by decide) (by decide) rfl
    (by decide) (by decide) rfl (Or.inl rfl)

/-- The maintenance block never touches the task collection. -/
theorem finishPending_tasks (s2 : State) (tid : String) (t' : Task)
    (iuc : Bool) (nau : Option User) :
    (finishPending s2 tid t' iuc nau).tasks = s2.tasks := by
  unfold finishPending
  repeat' split
  all_goals rfl

/-- The completion-removal block never touches the task collection. -/
theorem finishComplete_tasks (s3 : State) (t' : Task) (icc : Bool) :
    (finishComplete s3 t' icc).tasks = s3.tasks := by
  unfold finishComplete
  repeat' split
  all_goals rfl

/-- The completion-removal block does nothing when
`isCompletedChanged` is false. -/
theorem finishComplete_skip (s3 : State) (t' : Task) :
    finishComplete s3 t' false = s3 := by
  unfold finishComplete
  rw [if_neg (by simp)]

/-- The self-healing branch of the maintenance block: unchanged,
non-empty, not-completed assignee. -/
theorem finishPending_selfheal (s2 : State) (tid : String) (t' : Task) (cu : User)
    (hc : t'.completed = false) (hau : t'.assignedUser ≠ "")
    (hfu : findUser s2 t'.assignedUser = some cu) :
    finishPending s2 tid t' false none =
      if tid ∈ cu.pendingTasks then s2
      else saveUser s2 ⟨cu.id, cu.name, cu.email, addToSet tid cu.pendingTasks⟩ := by
  unfold finishPending
  rw [if_neg (by simp)]
  rw [if_pos ⟨hau, by simp [hc]⟩, hfu]

/-- Over a store with unique ids, a task sharing the id of a found task
is that task, and its fields are its own; users keep their lists.  Used
for the branches of task update that answer without writing. -/
theorem unchanged_frame (s : State) (task : Task) (hwf : WF s) (htm : task ∈ s.tasks) :
    (∀ t' ∈ s.tasks, t'.id = task.id →
        t'.assignedUser = task.assignedUser ∧ t'.assignedUserName = task.assignedUserName) ∧
    (∀ u ∈ s.users, ∃ u' ∈ s.users, u'.id = u.id ∧ ∀ y ∈ u.pendingTasks, y ∈ u'.pendingTasks) := by
  constructor
  · intro t' h1 h2
    have heq : t' = task := List.inj_on_of_nodup_map hwf.1 h1 htm h2
    rw [heq]
    exact ⟨rfl, rfl⟩
  · intro u hu
    exact ⟨u, hu, rfl, fun y hy => hy⟩

/-- The maintenance block only ever grows `pendingTasks` sets: with
unique user ids, every stored user maps to a successor with the same id
whose list contains everything the old one did. -/
theorem finishPending_users_grow (s2 : State) (tid : String) (t' : Task)
    (hus : (s2.users.map User.id).Nodup) :
    ∀ u ∈ s2.users, ∃ u' ∈ (finishPending s2 tid t' false none).users,
      u'.id = u.id ∧ ∀ y ∈ u.pendingTasks, y ∈ u'.pendingTasks := by
  intro u hu
  unfold finishPending
  rw [if_neg (by simp)]
  by_cases hcond : t'.assignedUser ≠ "" ∧ ¬t'.completed = true
  · rw [if_pos hcond]
    cases hfu : findUser s2 t'.assignedUser with
    | none => exact ⟨u, hu, rfl, fun y hy => hy⟩
    | some cu =>
      dsimp only
      by_cases hmem : tid ∈ cu.pendingTasks
      · rw [if_pos hmem]
        exact ⟨u, hu, rfl, fun y hy => hy⟩
      · rw [if_neg hmem]
        obtain ⟨cumem, cuid⟩ := findUser_mem hfu
        by_cases hui : u.id = cu.id
        · have hueq : u = cu := List.inj_on_of_nodup_map hus hu cumem hui
          refine ⟨⟨cu.id, cu.name, cu.email, addToSet tid cu.pendingTasks⟩, ?_, ?_, ?_⟩
          · simp only [saveUser, List.mem_map]
            exact ⟨u, hu, by rw [if_pos hui]⟩
          · rw [hui]
          · intro y hy
            rw [hueq] at hy
            exact mem_addToSet_of_mem tid hy
        · refine ⟨u, ?_, rfl, fun y hy => hy⟩
          simp only [saveUser, List.mem_map]
          exact ⟨u, hu, by rw [if_neg hui]⟩
  · rw [if_neg hcond]
    exact ⟨u, hu, rfl, fun y hy => hy⟩

/-! ### C9: re-supplying the same assignee is idempotent -/

/-- C9: a `PUT /tasks/:id` on an existing, not-completed task whose
body re-supplies the stored non-empty `assignedUser` (and carries the
required fields, does not set `completed` to `true`, and does not try
to change `_id`), over a store with unique ids where the assignee's
list holds the id at most once: the call succeeds, the id afterwards
appears exactly once in that user's `pendingTasks` (re-added if it was
missing, never duplicated), and fields the body does not name keep
their stored values. -/
theorem taskUpdate_same_assignee_idempotent (s : State) (tid : String) (b : TaskPutBody)
    (task : Task) (u : User) (hwf : WF s)
    (hv : validObjectId tid = true) (hn : b.name ≠ none) (hd : b.deadline ≠ none)
    (hid : b.idField = none) (hf : findTask s tid = some task) (hc : task.completed = false)
    (hau : task.assignedUser ≠ "") (hass : b.assignedUser = some task.assignedUser)
    (hcomp : b.completed ≠ some true) (hu : findUser s task.assignedUser = some u)
    (hcount : u.pendingTasks.count task.id ≤ 1) :
    (taskUpdate s tid b).err = none ∧
    (∀ u' ∈ (taskUpdate s tid b).st.users, u'.id = u.id →
        u'.pendingTasks.count task.id = 1) ∧
    (∀ t' ∈ (taskUpdate s tid b).st.tasks, t'.id = task.id →
        (b.description = none → t'.description = task.description) ∧
        (b.completed = none → t'.completed = task.completed) ∧
        t'.assignedUser = task.assignedUser ∧
        t'.assignedUserName = task.assignedUserName) := by
  obtain ⟨htmem, htid⟩ := findTask_mem hf
  obtain ⟨humem, huid⟩ := findUser_mem hu
  subst htid
  have hdisp := taskUpdate_eq_finish s task.id b task hv hn hd hf hc hid (Or.inr hass)
  have ht'c : (updatedTask b task).completed = false := by
    unfold updatedTask
    cases hbc : b.completed with
    | none => simpa using hc
    | some c =>
      cases c
      · simp
      · exact absurd hbc hcomp
  have hicc : taskIcc b task = false := by
    unfold taskIcc
    cases hbc : b.completed with
    | none => rfl
    | some c =>
      cases c
      · simp [hc]
      · exact absurd hbc hcomp
  have hfu : findUser (saveTask s (updatedTask b task)) (updatedTask b task).assignedUser
      = some u := by
    rw [findUser_saveTask]
    exact hu
  rw [hdisp]
  unfold taskUpdateFinish
  dsimp only
  rw [hicc, finishComplete_skip, finishPending_selfheal _ task.id _ u ht'c hau hfu]
  have htasks : ∀ t' ∈ (saveTask s (updatedTask b task)).tasks, t'.id = task.id →
      (b.description = none → t'.description = task.description) ∧
      (b.completed = none → t'.completed = task.completed) ∧
      t'.assignedUser = task.assignedUser ∧
      t'.assignedUserName = task.assignedUserName := by
    intro t' hmem' hid'
    simp only [saveTask, List.mem_map] at hmem'
    obtain ⟨x, hx, hxe⟩ := hmem'
    by_cases hxi : x.id = (updatedTask b task).id
    · rw [if_pos hxi] at hxe
      rw [← hxe]
      refine ⟨fun h => by simp [updatedTask, h], fun h => by simp [updatedTask, h], rfl, rfl⟩
    · rw [if_neg hxi] at hxe
      rw [← hxe] at hid'
      exact absurd hid' hxi
  by_cases hmemb : task.id ∈ u.pendingTasks
  · rw [if_pos hmemb]
    refine ⟨rfl, ?_, htasks⟩
    intro u' hmem' hid'
    have hueq : u' = u := findUser_unique hwf.2 hu hmem' (by rw [hid', huid])
    subst hueq
    have hne : u'.pendingTasks.count task.id ≠ 0 := by
      rw [Ne, List.count_eq_zero]
      exact fun h => h hmemb
    omega
  · rw [if_neg hmemb]
    refine ⟨rfl, ?_, htasks⟩
    intro u' hmem' hid'
    simp only [saveUser, saveTask, List.mem_map] at hmem'
    obtain ⟨x, hx, hxe⟩ := hmem'
    by_cases hxi : x.id = u.id
    · rw [if_pos hxi] at hxe
      rw [← hxe]
      have haz : addToSet task.id u.pendingTasks = u.pendingTasks ++ [task.id] := by
        unfold addToSet
        rw [if_neg hmemb]
      simp only [haz, List.count_append]
      have hz : u.pendingTasks.count task.id = 0 := List.count_eq_zero.mpr hmemb
      simp [hz]
    · rw [if_neg hxi] at hxe
      rw [← hxe] at hid'
      exact absurd hid' hxi

/-- Witness for C9: re-supplying Ann as assignee of her own pending
task succeeds and leaves her list holding the id exactly once. -/
theorem taskUpdate_same_assignee_idempotent_witness :
    findTask stA tidA = some ⟨tidA, "Ship", "", "D", false, uidA, "Ann"⟩ ∧
    findUser stA uidA = some ⟨uidA, "Ann", "a@x.com", [tidA]⟩ ∧
    (taskUpdate stA tidA ⟨none, some "Ship", none, some "D", none, some uidA, none⟩).err = none ∧
    (∀ u' ∈ (taskUpdate stA tidA ⟨none, some "Ship", none, some "D", none, some uidA, none⟩).st.users,
      u'.id = uidA → u'.pendingTasks.count tidA = 1) := by
  refine ⟨by decide, by decide, ?_⟩
  have h := taskUpdate_same_assignee_idempotent stA tidA
    ⟨none, some "Ship", none, some "D", none, some uidA, none⟩
    ⟨tidA, "Ship", "", "D", false, uidA, "Ann"⟩ ⟨uidA, "Ann", "a@x.com", [tidA]⟩
    (by decide) (by decide) (by decide) (by decide) (by decide) rfl rfl
    (by decide) rfl (by decide) rfl (by decide)
  exact ⟨h.1, h.2.1⟩

/-! ### C7: omitting assignedUser leaves the assignment untouched -/

/-- Counterexample to C7: a `PUT /tasks/:id` body without an
`assignedUser` field but with `completed = true`, on the not-completed
task of `stA` assigned to Ann: the call succeeds and Ann's
`pendingTasks` *does* lose the task's id (the completion-removal step),
refuting the claim's "no user's pendingTasks loses the task's id". -/
theorem taskUpdate_absent_assignee_cex :
    putComplete.assignedUser = none ∧
    (∃ u ∈ stA.users, u.id = uidA ∧ tidA ∈ u.pendingTasks) ∧
    (taskUpdate stA tidA putComplete).err = none ∧
    ¬(∃ u ∈ (taskUpdate stA tidA putComplete).st.users,
        u.id = uidA ∧ tidA ∈ u.pendingTasks) := by
  exact ⟨rfl, by decide, by decide, by decide⟩

/-- C7 (amended): a `PUT /tasks/:id` call on an existing, not-completed
task whose body has no `assignedUser` field *and does not set
`completed` to `true`* leaves every stored task with that id carrying
its previous `assignedUser` and `assignedUserName` (absence means
"leave untouched"), and every user keeps everything in `pendingTasks`
(whether the call succeeds or fails). -/
theorem taskUpdate_absent_assignee_frame (s : State) (tid : String) (b : TaskPutBody)
    (task : Task) (hwf : WF s)
    (hf : findTask s tid = some task) (hc : task.completed = false)
    (hna : b.assignedUser = none) (hnc : b.completed ≠ some true) :
    (∀ t' ∈ (taskUpdate s tid b).st.tasks, t'.id = task.id →
        t'.assignedUser = task.assignedUser ∧ t'.assignedUserName = task.assignedUserName) ∧
    (∀ u ∈ s.users, ∃ u' ∈ (taskUpdate s tid b).st.users,
        u'.id = u.id ∧ ∀ y ∈ u.pendingTasks, y ∈ u'.pendingTasks) := by
  obtain ⟨htmem, htid⟩ := findTask_mem hf
  unfold taskUpdate
  by_cases hv : validObjectId tid = true
  case neg =>
    rw [if_pos hv]
    exact unchanged_frame s task hwf htmem
  case pos =>
    rw [if_neg (by simp [hv])]
    by_cases hmiss : b.name = none ∨ b.deadline = none
    · rw [if_pos (by rcases hmiss with h | h <;> simp [h])]
      exact unchanged_frame s task hwf htmem
    · push_neg at hmiss
      rw [if_neg (by simp [hmiss.1, hmiss.2])]
      rw [hf]
      dsimp only
      rw [if_neg (by simp [hc])]
      by_cases hidf : (match b.idField with
          | some i => decide (i ≠ "" ∧ i ≠ tid)
          | none => false) = true
      · rw [if_pos hidf]
        exact unchanged_frame s task hwf htmem
      · rw [if_neg hidf]
        unfold taskUpdateAssign
        rw [hna]
        unfold taskUpdateFinish
        dsimp only
        have hicc : taskIcc b task = false := by
          unfold taskIcc
          cases hbc : b.completed with
          | none => rfl
          | some c =>
            cases c
            · simp [hc]
            · exact absurd hbc hnc
        rw [hicc, finishComplete_skip]
        constructor
        · intro t' hmem' hid'
          rw [finishPending_tasks] at hmem'
          simp only [saveTask, List.mem_map] at hmem'
          obtain ⟨x, hx, hxe⟩ := hmem'
          by_cases hxi : x.id = (updatedTask b task).id
          · rw [if_pos hxi] at hxe
            rw [← hxe]
            exact ⟨rfl, rfl⟩
          · rw [if_neg hxi] at hxe
            rw [← hxe] at hid'
            exact absurd hid' hxi
        · intro u hu
          exact finishPending_users_grow (saveTask s (updatedTask b task)) tid
            (updatedTask b task) hwf.2 u hu

/-- Witness for C7 (amended): renaming the task of `stA` (body without
`assignedUser`, `completed` untouched) keeps its assignment and Ann's
list. -/
theorem taskUpdate_absent_assignee_frame_witness :
    findTask stA tidA = some ⟨tidA, "Ship", "", "D", false, uidA, "Ann"⟩ ∧
    ((∀ t' ∈ (taskUpdate stA tidA ⟨none, some "Other", none, some "D", none, none, none⟩).st.tasks,
        t'.id = tidA → t'.assignedUser = uidA ∧ t'.assignedUserName = "Ann") ∧
     (∀ u ∈ stA.users, ∃ u' ∈ (taskUpdate stA tidA ⟨none, some "Other", none, some "D", none, none, none⟩).st.users,
        u'.id = u.id ∧ ∀ y ∈ u.pendingTasks, y ∈ u'.pendingTasks)) := by
  refine ⟨by decide, ?_⟩
  exact taskUpdate_absent_assignee_frame stA tidA
    ⟨none, some "Other", none, some "D", none, none, none⟩
    ⟨tidA, "Ship", "", "D", false, uidA, "Ann"⟩
    (by decide) rfl rfl rfl (by decide)

/-! ### The user-update validation loop -/

/-- `find?` over a map that preserves the searched key. -/
theorem find?_map_id_preserving {f : Task → Task} (hf : ∀ d, (f d).id = d.id)
    (i : String) (l : List Task) :
    (l.map f).find? (fun d => d.id == i) = (l.find? (fun d => d.id == i)).map f := by
  induction l with
  | nil => rfl
  | cons a tl ih =>
    by_cases h : a.id = i
    · simp [List.find?_cons, hf a, h]
    · simp [List.find?_cons, hf a, h, ih]

/-- Looking a task up after a save: the found document, patched if it
is the one saved. -/
theorem findTask_saveTask (s : State) (t : Task) (i : String) :
    findTask (saveTask s t) i = (findTask s i).map (fun d => if d.id = t.id then t else d) := by
  unfold findTask saveTask
  exact find?_map_id_preserving
    (fun d => by by_cases h : d.id = t.id <;> simp [h]) i s.tasks

theorem loopFrame_refl (userId uname : String) (s : State) :
    loopFrame userId uname s s :=
  ⟨rfl, fun _ => Or.inl rfl⟩

/-- Claiming an unassigned task found mid-loop preserves the loop
frame. -/
theorem loopFrame_save (userId uname : String) {s s' : State} {x : String} {tx : Task}
    (hfr : loopFrame userId uname s s') (hfx : findTask s' x = some tx)
    (hun : tx.assignedUser = "") :
    loopFrame userId uname s (saveTask s' (claimTask userId uname tx)) := by
  obtain ⟨hu, hfr⟩ := hfr
  have htxid : tx.id = x := (findTask_mem hfx).2
  constructor
  · exact hu
  · intro i
    rw [findTask_saveTask]
    rcases hfr i with h | ⟨t0, ht0, ht0u, ht0f⟩
    · cases hsi : findTask s' i with
      | none =>
        rw [hsi] at h
        rw [← h]
        exact Or.inl rfl
      | some d =>
        have hdid : d.id = i := (findTask_mem hsi).2
        by_cases hix : i = x
        · subst hix
          have hdtx : d = tx := by
            rw [hsi] at hfx
            exact (Option.some_injective _ hfx)
          subst hdtx
          refine Or.inr ⟨d, ?_, hun, ?_⟩
          · rw [← h, hsi]
          · simp only [Option.map_some']
            simp [claimTask]
        · rw [hsi] at h
          rw [← h]
          refine Or.inl ?_
          simp only [Option.map_some']
          rw [if_neg (fun hcc => hix (by rw [← hdid, hcc]; exact htxid))]
    · by_cases hix : i = x
      · subst hix
        have htx0 : claimTask userId uname t0 = tx := by
          rw [ht0f] at hfx
          exact Option.some_injective _ hfx
        refine Or.inr ⟨t0, ht0, ht0u, ?_⟩
        rw [ht0f]
        simp only [Option.map_some']
        rw [← htx0]
        simp [claimTask]
      · have ht0id : (claimTask userId uname t0).id = i := (findTask_mem ht0f).2
        refine Or.inr ⟨t0, ht0, ht0u, ?_⟩
        rw [ht0f]
        simp only [Option.map_some']
        rw [if_neg (fun hcc => hix (by rw [← ht0id, hcc]; exact htxid))]

/-- Processing a prefix of well-behaved ids (each resolving to a task
that is unassigned or already this user's) reduces the loop to the rest
of the list, reaching a store still related by the loop frame. -/
theorem procPending_prefix (userId uname : String) :
    ∀ (l1 : List String) (s s' : State) (acc rest : List String),
      loopFrame userId uname s s' →
      (∀ x ∈ l1, ∃ t, findTask s x = some t ∧
        (t.assignedUser = "" ∨ t.assignedUser = userId)) →
      ∃ s2 acc2, procPending s' userId uname (l1 ++ rest) acc =
          procPending s2 userId uname rest acc2 ∧
        loopFrame userId uname s s2 := by
  intro l1
  induction l1 with
  | nil =>
    intro s s' acc rest hfr _
    exact ⟨s', acc, rfl, hfr⟩
  | cons x l1' ih =>
    intro s s' acc rest hfr hpre
    obtain ⟨t, hft, htu⟩ := hpre x (List.mem_cons_self x l1')
    have hstep : ∃ tx, findTask s' x = some tx ∧
        (tx.assignedUser = "" ∨ tx.assignedUser = userId) := by
      rcases hfr.2 x with h | ⟨t0, ht0, ht0u, ht0f⟩
      · exact ⟨t, by rw [h, hft], htu⟩
      · exact ⟨claimTask userId uname t0, ht0f, Or.inr rfl⟩
    obtain ⟨tx, hfx, htxu⟩ := hstep
    have hnoerr : ¬(tx.assignedUser ≠ "" ∧ tx.assignedUser ≠ userId) := by
      rcases htxu with h | h
      · exact fun hc => hc.1 h
      · exact fun hc => hc.2 h
    have hred : procPending s' userId uname ((x :: l1') ++ rest) acc =
        procPending (if tx.assignedUser = "" then saveTask s' (claimTask userId uname tx) else s')
          userId uname (l1' ++ rest) (addToSet x acc) := by
      rw [List.cons_append]
      conv_lhs => rw [procPending]
      rw [hfx]
      dsimp only
      rw [if_neg hnoerr]
    by_cases hce : tx.assignedUser = ""
    · rw [if_pos hce] at hred
      obtain ⟨s2, acc2, heq, hfr2⟩ := ih s (saveTask s' (claimTask userId uname tx))
        (addToSet x acc) rest (loopFrame_save userId uname hfr hfx hce)
        (fun y hy => hpre y (List.mem_cons_of_mem x hy))
      exact ⟨s2, acc2, by rw [hred, heq], hfr2⟩
    · rw [if_neg hce] at hred
      obtain ⟨s2, acc2, heq, hfr2⟩ := ih s s' (addToSet x acc) rest hfr
        (fun y hy => hpre y (List.mem_cons_of_mem x hy))
      exact ⟨s2, acc2, by rw [hred, heq], hfr2⟩

/-! ### C4: validation of the supplied pendingTasks list on user update -/

/-- Counterexample to C4: the store of `stC` holds a *completed*,
unassigned task; a user update supplying exactly that id succeeds
instead of failing with the immutability error, and the completed
task's id is accepted into the user's `pendingTasks`. -/
theorem userUpdate_completed_accepted_cex :
    (∃ t ∈ stC.tasks, t.id = tidA ∧ t.completed = true) ∧
    (userUpdate stC uidA ⟨none, none, some [tidA]⟩).err = none ∧
    (∃ u ∈ (userUpdate stC uidA ⟨none, none, some [tidA]⟩).st.users,
      u.id = uidA ∧ tidA ∈ u.pendingTasks) := by
  exact ⟨by decide, by decide, by decide⟩

/-- C4 (amended): on `PUT /users/:id` with a `pendingTasks` list, an id
that does not resolve to an existing task fails the call with the
task-does-not-exist reference error (stated for lists whose earlier
entries validate, i.e. resolve to tasks unassigned or already this
user's), and the user collection is untouched by the failed call, so no
list entry is accepted into the stored user's `pendingTasks`; completed
tasks, however, are *not* rejected. -/
theorem userUpdate_pending_reference_error (s : State) (userId : String) (b : UserPutBody)
    (user : User) (l1 l2 : List String) (tid : String)
    (huser : findUser s userId = some user)
    (hbp : b.pendingTasks = some (l1 ++ tid :: l2))
    (hpre : ∀ x ∈ l1, ∃ t, findTask s x = some t ∧
      (t.assignedUser = "" ∨ t.assignedUser = userId))
    (hmiss : findTask s tid = none) :
    (userUpdate s userId b).err = some (ErrKind.taskNotExist tid) ∧
    (userUpdate s userId b).st.users = s.users := by
  obtain ⟨s2, acc2, heq, hfr2⟩ := procPending_prefix userId (b.name.getD user.name)
    l1 s s [] (tid :: l2) (loopFrame_refl _ _ s) hpre
  have hmiss2 : findTask s2 tid = none := by
    rcases hfr2.2 tid with h | ⟨t0, ht0, _, _⟩
    · rw [h, hmiss]
    · rw [ht0] at hmiss
      exact absurd hmiss (by simp)
  have hloop : procPending s userId (b.name.getD user.name) (l1 ++ tid :: l2) [] =
      Except.error (ErrKind.taskNotExist tid, s2) := by
    rw [heq]
    unfold procPending
    rw [hmiss2]
  unfold userUpdate
  rw [huser]
  dsimp only
  rw [hbp]
  dsimp only
  rw [hloop]
  exact ⟨rfl, hfr2.1⟩

/-- Witness for C4 (amended): Ann exists, `stA` has no task `tidB`, so
updating Ann with `pendingTasks = [tidB]` fails with the reference
error and leaves the user collection as it was. -/
theorem userUpdate_pending_reference_error_witness :
    findUser stA uidA = some ⟨uidA, "Ann", "a@x.com", [tidA]⟩ ∧
    findTask stA tidB = none ∧
    (userUpdate stA uidA ⟨none, none, some [tidB]⟩).err = some (ErrKind.taskNotExist tidB) ∧
    (userUpdate stA uidA ⟨none, none, some [tidB]⟩).st.users = stA.users := by
  refine ⟨by decide, by decide, ?_⟩
  exact userUpdate_pending_reference_error stA uidA ⟨none, none, some [tidB]⟩
    ⟨uidA, "Ann", "a@x.com", [tidA]⟩ [] [] tidB rfl rfl
    (fun x hx => absurd hx (List.not_mem_nil x)) (by decide)

/-! ### C3: a task owned by another user is rejected, not detached -/

/-- Counterexample to C3: updating Bob with a `pendingTasks` list
holding the task assigned to Ann does *not* succeed: the handler
answers with the assigned-to-another-user error, the task stays
assigned to Ann, and Ann's `pendingTasks` still holds it. -/
theorem userUpdate_foreign_task_cex :
    (userUpdate stA uidB ⟨none, none, some [tidA]⟩).err =
      some (ErrKind.taskAssignedOther tidA) ∧
    findTask (userUpdate stA uidB ⟨none, none, some [tidA]⟩).st tidA =
      some ⟨tidA, "Ship", "", "D", false, uidA, "Ann"⟩ ∧
    (∃ u ∈ (userUpdate stA uidB ⟨none, none, some [tidA]⟩).st.users,
      u.id = uidA ∧ tidA ∈ u.pendingTasks) := by
  exact ⟨by decide, by decide, by decide⟩

/-- C3 (amended): on `PUT /users/:id` with a `pendingTasks` list, an id
resolving to an existing task currently assigned to a *different* user
fails the call with the assigned-to-another-user error (stated for
lists whose earlier entries validate); the task is not detached — the
offending id still looks up to its old document, with its old owner —
and no user document changes. -/
theorem userUpdate_foreign_task_rejected (s : State) (userId : String) (b : UserPutBody)
    (user : User) (t : Task) (l1 l2 : List String) (tid : String)
    (huser : findUser s userId = some user)
    (hbp : b.pendingTasks = some (l1 ++ tid :: l2))
    (hpre : ∀ x ∈ l1, ∃ t0, findTask s x = some t0 ∧
      (t0.assignedUser = "" ∨ t0.assignedUser = userId))
    (hft : findTask s tid = some t)
    (hfu : t.assignedUser ≠ "") (hfo : t.assignedUser ≠ userId) :
    (userUpdate s userId b).err = some (ErrKind.taskAssignedOther tid) ∧
    (userUpdate s userId b).st.users = s.users ∧
    findTask (userUpdate s userId b).st tid = some t := by
  obtain ⟨s2, acc2, heq, hfr2⟩ := procPending_prefix userId (b.name.getD user.name)
    l1 s s [] (tid :: l2) (loopFrame_refl _ _ s) hpre
  have hft2 : findTask s2 tid = some t := by
    rcases hfr2.2 tid with h | ⟨t0, ht0, ht0u, _⟩
    · rw [h, hft]
    · rw [ht0] at hft
      have : t0 = t := Option.some_injective _ hft
      rw [this] at ht0u
      exact absurd ht0u hfu
  have hloop : procPending s userId (b.name.getD user.name) (l1 ++ tid :: l2) [] =
      Except.error (ErrKind.taskAssignedOther tid, s2) := by
    rw [heq]
    unfold procPending
    rw [hft2]
    dsimp only
    rw [if_pos ⟨hfu, hfo⟩]
  unfold userUpdate
  rw [huser]
  dsimp only
  rw [hbp]
  dsimp only
  rw [hloop]
  exact ⟨rfl, hfr2.1, hft2⟩

/-- Witness for C3 (amended): Bob's update naming Ann's task fails with
the assigned-to-another-user error; the task still belongs to Ann. -/
theorem userUpdate_foreign_task_rejected_witness :
    findUser stA uidB = some ⟨uidB, "Bob", "b@x.com", []⟩ ∧
    findTask stA tidA = some ⟨tidA, "Ship", "", "D", false, uidA, "Ann"⟩ ∧
    (userUpdate stA uidB ⟨some "Bob", none, some [tidA]⟩).err =
      some (ErrKind.taskAssignedOther tidA) ∧
    (userUpdate stA uidB ⟨some "Bob", none, some [tidA]⟩).st.users = stA.users ∧
    findTask (userUpdate stA uidB ⟨some "Bob", none, some [tidA]⟩).st tidA =
      some ⟨tidA, "Ship", "", "D", false, uidA, "Ann"⟩ := by
  refine ⟨by decide, by decide, ?_⟩
  exact userUpdate_foreign_task_rejected stA uidB ⟨some "Bob", none, some [tidA]⟩
    ⟨uidB, "Bob", "b@x.com", []⟩ ⟨tidA, "Ship", "", "D", false, uidA, "Ann"⟩
    [] [] tidA rfl rfl (fun x hx => absurd hx (List.not_mem_nil x)) rfl
    (by decide) (by decide)

/-! ### Invariant 1 across the task-update tail -/

theorem finishComplete_eq_of_not_completed (s3 : State) (t' : Task) (icc : Bool)
    (h : t'.completed = false) : finishComplete s3 t' icc = s3 := by
  unfold finishComplete
  rw [if_neg (by simp [h])]

/-- The maintenance block keeps the user id multiset. -/
theorem finishPending_ids (s2 : State) (tid : String) (t' : Task)
    (iuc : Bool) (nau : Option User) :
    (finishPending s2 tid t' iuc nau).users.map User.id = s2.users.map User.id := by
  unfold finishPending
  repeat' split
  all_goals first | rfl | exact saveUser_ids _ _

/-- The completion-removal block keeps the user id multiset. -/
theorem finishComplete_ids (s3 : State) (t' : Task) (icc : Bool) :
    (finishComplete s3 t' icc).users.map User.id = s3.users.map User.id := by
  unfold finishComplete
  repeat' split
  all_goals first | rfl | exact saveUser_ids _ _

/-- After the self-healing branch (assignee unchanged, non-empty, not
completed), every stored user with the assignee's id lists the task. -/
theorem finishPending_mem_selfheal (s2 : State) (tid : String) (t' : Task)
    (nau : Option User) (hus : (s2.users.map User.id).Nodup)
    (hau : t'.assignedUser ≠ "") (hc : t'.completed = false) :
    ∀ u ∈ (finishPending s2 tid t' false nau).users, u.id = t'.assignedUser →
      tid ∈ u.pendingTasks := by
  intro u hu huid
  unfold finishPending at hu
  rw [if_neg (by simp)] at hu
  rw [if_pos ⟨hau, by simp [hc]⟩] at hu
  cases hfu : findUser s2 t'.assignedUser with
  | none =>
    rw [hfu] at hu
    dsimp only at hu
    exact absurd huid (findUser_none hfu u hu)
  | some cu =>
    rw [hfu] at hu
    dsimp only at hu
    by_cases hmem : tid ∈ cu.pendingTasks
    · rw [if_pos hmem] at hu
      have hueq : u = cu := findUser_unique hus hfu hu huid
      rw [hueq]
      exact hmem
    · rw [if_neg hmem] at hu
      simp only [saveUser, List.mem_map] at hu
      obtain ⟨u0, hu0, he⟩ := hu
      by_cases h0 : u0.id = cu.id
      · rw [if_pos h0] at he
        rw [← he]
        exact mem_addToSet_self tid cu.pendingTasks
      · rw [if_neg h0] at he
        rw [← he] at huid
        exact absurd (huid.trans (findUser_mem hfu).2.symm) h0

/-- After the changed-assignee branch with a resolved new assignee and
a not-completed task, every stored user with the new assignee's id
lists the task. -/
theorem finishPending_mem_newassignee (s2 : State) (tid : String) (t' : Task)
    (nu : User) (hus : (s2.users.map User.id).Nodup) (hc : t'.completed = false)
    (hfu : findUser s2 nu.id = some nu) :
    ∀ u ∈ (finishPending s2 tid t' true (some nu)).users, u.id = nu.id →
      tid ∈ u.pendingTasks := by
  intro u hu huid
  unfold finishPending at hu
  rw [if_pos rfl] at hu
  dsimp only at hu
  by_cases hcond : ¬t'.completed = true ∧ tid ∉ nu.pendingTasks
  · rw [if_pos hcond] at hu
    simp only [saveUser, List.mem_map] at hu
    obtain ⟨u0, hu0, he⟩ := hu
    by_cases h0 : u0.id = nu.id
    · rw [if_pos h0] at he
      rw [← he]
      exact mem_addToSet_self tid nu.pendingTasks
    · rw [if_neg h0] at he
      rw [← he] at huid
      exact absurd huid h0
  · rw [if_neg hcond] at hu
    have hmem : tid ∈ nu.pendingTasks := by
      by_contra hx
      exact hcond ⟨by simp [hc], hx⟩
    have hueq : u = nu := findUser_unique hus hfu hu huid
    rw [hueq]
    exact hmem

/-- Every user after the maintenance block comes from a user with the
same id whose `pendingTasks` it contains. -/
theorem finishPending_track (s2 : State) (tid : String) (t' : Task)
    (iuc : Bool) (nau : Option User) (hus : (s2.users.map User.id).Nodup)
    (hnau : ∀ nu, nau = some nu → findUser s2 nu.id = some nu) :
    ∀ u' ∈ (finishPending s2 tid t' iuc nau).users, ∃ u0 ∈ s2.users,
      u'.id = u0.id ∧ ∀ y ∈ u0.pendingTasks, y ∈ u'.pendingTasks := by
  intro u' hu'
  unfold finishPending at hu'
  by_cases hiuc : iuc = true
  · rw [if_pos hiuc] at hu'
    cases nau with
    | none =>
      dsimp only at hu'
      exact ⟨u', hu', rfl, fun y hy => hy⟩
    | some nu =>
      dsimp only at hu'
      by_cases hcond : ¬t'.completed = true ∧ tid ∉ nu.pendingTasks
      · rw [if_pos hcond] at hu'
        simp only [saveUser, List.mem_map] at hu'
        obtain ⟨u0, hu0, he⟩ := hu'
        by_cases h0 : u0.id = nu.id
        · rw [if_pos h0] at he
          have hu0nu : u0 = nu := findUser_unique hus (hnau nu rfl) hu0 h0
          refine ⟨u0, hu0, by rw [← he]; exact h0.symm, ?_⟩
          intro y hy
          rw [← he]
          rw [hu0nu] at hy
          exact mem_addToSet_of_mem tid hy
        · rw [if_neg h0] at he
          exact ⟨u0, hu0, by rw [← he], by rw [← he]; exact fun y hy => hy⟩
      · rw [if_neg hcond] at hu'
        exact ⟨u', hu', rfl, fun y hy => hy⟩
  · rw [if_neg hiuc] at hu'
    by_cases hcond : t'.assignedUser ≠ "" ∧ ¬t'.completed = true
    · rw [if_pos hcond] at hu'
      cases hfu : findUser s2 t'.assignedUser with
      | none =>
        rw [hfu] at hu'
        dsimp only at hu'
        exact ⟨u', hu', rfl, fun y hy => hy⟩
      | some cu =>
        rw [hfu] at hu'
        dsimp only at hu'
        by_cases hmem : tid ∈ cu.pendingTasks
        · rw [if_pos hmem] at hu'
          exact ⟨u', hu', rfl, fun y hy => hy⟩
        · rw [if_neg hmem] at hu'
          simp only [saveUser, List.mem_map] at hu'
          obtain ⟨u0, hu0, he⟩ := hu'
          by_cases h0 : u0.id = cu.id
          · rw [if_pos h0] at he
            have hu0cu : u0 = cu :=
              findUser_unique hus hfu hu0 (h0.trans (findUser_mem hfu).2)
            refine ⟨u0, hu0, by rw [← he]; exact h0.symm, ?_⟩
            intro y hy
            rw [← he]
            rw [hu0cu] at hy
            exact mem_addToSet_of_mem tid hy
          · rw [if_neg h0] at he
            exact ⟨u0, hu0, by rw [← he], by rw [← he]; exact fun y hy => hy⟩
    · rw [if_neg hcond] at hu'
      exact ⟨u', hu', rfl, fun y hy => hy⟩

/-- Every user after the completion-removal block comes from a user
with the same id whose `pendingTasks` it contains except possibly the
updated task's id. -/
theorem finishComplete_track (s3 : State) (t' : Task) (icc : Bool)
    (hus : (s3.users.map User.id).Nodup) :
    ∀ u' ∈ (finishComplete s3 t' icc).users, ∃ u0 ∈ s3.users,
      u'.id = u0.id ∧ ∀ y, y ≠ t'.id → y ∈ u0.pendingTasks → y ∈ u'.pendingTasks := by
  intro u' hu'
  unfold finishComplete at hu'
  by_cases hcond : icc = true ∧ t'.completed = true ∧ t'.assignedUser ≠ ""
  · rw [if_pos hcond] at hu'
    cases hfu : findUser s3 t'.assignedUser with
    | none =>
      rw [hfu] at hu'
      dsimp only at hu'
      exact ⟨u', hu', rfl, fun y _ hy => hy⟩
    | some au =>
      rw [hfu] at hu'
      dsimp only at hu'
      simp only [saveUser, List.mem_map] at hu'
      obtain ⟨u0, hu0, he⟩ := hu'
      by_cases h0 : u0.id = au.id
      · rw [if_pos h0] at he
        have hu0au : u0 = au :=
          findUser_unique hus hfu hu0 (h0.trans (findUser_mem hfu).2)
        refine ⟨u0, hu0, by rw [← he]; exact h0.symm, ?_⟩
        intro y hyne hy
        rw [← he]
        rw [hu0au] at hy
        simp only [List.mem_filter, decide_eq_true_eq]
        exact ⟨hy, hyne⟩
      · rw [if_neg h0] at he
        exact ⟨u0, hu0, by rw [← he], by rw [← he]; exact fun y _ hy => hy⟩
  · rw [if_neg hcond] at hu'
    exact ⟨u', hu', rfl, fun y _ hy => hy⟩

/-- Invariant 1 after the task-update tail, given it for the other
tasks of the entry store and the reassignment facts established by the
branch that led here. -/
theorem inv1_finish (s : State) (tid : String) (b : TaskPutBody) (task : Task)
    (iuc : Bool) (nau : Option User) (icc : Bool)
    (hus : (s.users.map User.id).Nodup) (htid : task.id = tid)
    (hother : ∀ x ∈ s.tasks, x.id ≠ tid → x.assignedUser ≠ "" → x.completed = false →
      ∀ u ∈ s.users, u.id = x.assignedUser → x.id ∈ u.pendingTasks)
    (hnau : ∀ nu, nau = some nu → task.assignedUser = nu.id ∧ findUser s nu.id = some nu)
    (hiucn : iuc = true → nau = none → task.assignedUser = "") :
    inv1 (taskUpdateFinish s tid b task iuc nau icc).st := by
  unfold taskUpdateFinish inv1
  dsimp only
  intro x hx hxa hxc u hu huid
  rw [finishComplete_tasks, finishPending_tasks] at hx
  simp only [saveTask, List.mem_map] at hx
  obtain ⟨x0, hx0, hxe⟩ := hx
  have hus2 : ((saveTask s (updatedTask b task)).users.map User.id).Nodup := hus
  have hus3 : ((finishPending (saveTask s (updatedTask b task)) tid
      (updatedTask b task) iuc nau).users.map User.id).Nodup := by
    rw [finishPending_ids]
    exact hus
  by_cases hxid : x0.id = (updatedTask b task).id
  · rw [if_pos hxid] at hxe
    rw [← hxe] at hxa hxc huid ⊢
    rw [finishComplete_eq_of_not_completed _ _ _ hxc] at hu
    have hgid : (updatedTask b task).id = tid := htid
    rw [hgid]
    cases hiuc2 : iuc with
    | false =>
      rw [hiuc2] at hu
      exact finishPending_mem_selfheal _ tid _ nau hus2 hxa hxc u hu huid
    | true =>
      cases hnau2 : nau with
      | none =>
        rw [hiuc2, hnau2] at hu
        have h0 : task.assignedUser = "" := hiucn hiuc2 hnau2
        exact absurd h0 hxa
      | some nu =>
        rw [hiuc2, hnau2] at hu
        obtain ⟨hnaueq, hnufind⟩ := hnau nu hnau2
        have hnufind2 : findUser (saveTask s (updatedTask b task)) nu.id = some nu := hnufind
        have huid2 : u.id = nu.id := huid.trans hnaueq
        exact finishPending_mem_newassignee _ tid _ nu hus2 hxc hnufind2 u hu huid2
  · rw [if_neg hxid] at hxe
    rw [← hxe] at hxa hxc huid ⊢
    have hxne : x0.id ≠ tid := fun h => hxid (h.trans htid.symm)
    obtain ⟨u3, hu3, hid3, hk3⟩ := finishComplete_track _ _ icc hus3 u hu
    obtain ⟨u0, hu0, hid0, hk0⟩ := finishPending_track _ tid _ iuc nau hus2
      (fun nu hnu => (hnau nu hnu).2) u3 hu3
    have hx0mem : x0.id ∈ u0.pendingTasks :=
      hother x0 hx0 hxne hxa hxc u0 hu0 (by rw [← hid0, ← hid3]; exact huid)
    exact hk3 x0.id hxid (hk0 x0.id hx0mem)

theorem detachOld_tasks (s : State) (task : Task) :
    (detachOld s task).tasks = s.tasks := by
  unfold detachOld
  repeat' split
  all_goals rfl

theorem detachOld_ids (s : State) (task : Task) :
    (detachOld s task).users.map User.id = s.users.map User.id := by
  unfold detachOld
  repeat' split
  all_goals first | rfl | exact saveUser_ids _ _

/-- Every user after the old-assignee detach comes from a user with the
same id whose `pendingTasks` it contains except possibly the task's
id. -/
theorem detachOld_track (s : State) (task : Task)
    (hus : (s.users.map User.id).Nodup) :
    ∀ u' ∈ (detachOld s task).users, ∃ u0 ∈ s.users,
      u'.id = u0.id ∧ ∀ y, y ≠ task.id → y ∈ u0.pendingTasks → y ∈ u'.pendingTasks := by
  intro u' hu'
  unfold detachOld at hu'
  by_cases hau : task.assignedUser ≠ ""
  · rw [if_pos hau] at hu'
    cases hfu : findUser s task.assignedUser with
    | none =>
      rw [hfu] at hu'
      dsimp only at hu'
      exact ⟨u', hu', rfl, fun y _ hy => hy⟩
    | some ou =>
      rw [hfu] at hu'
      dsimp only at hu'
      simp only [saveUser, List.mem_map] at hu'
      obtain ⟨u0, hu0, he⟩ := hu'
      by_cases h0 : u0.id = ou.id
      · rw [if_pos h0] at he
        have hu0ou : u0 = ou :=
          findUser_unique hus hfu hu0 (h0.trans (findUser_mem hfu).2)
        refine ⟨u0, hu0, by rw [← he]; exact h0.symm, ?_⟩
        intro y hyne hy
        rw [← he]
        rw [hu0ou] at hy
        simp only [List.mem_filter, decide_eq_true_eq]
        exact ⟨hy, hyne⟩
      · rw [if_neg h0] at he
        exact ⟨u0, hu0, by rw [← he], by rw [← he]; exact fun y _ hy => hy⟩
  · rw [if_neg hau] at hu'
    exact ⟨u', hu', rfl, fun y _ hy => hy⟩

/-- Invariant 1 is preserved by a successful `PUT /tasks/:id`. -/
theorem inv1_taskUpdate (s : State) (tid : String) (b : TaskPutBody)
    (hwf : WF s) (h1 : inv1 s) (hsucc : (taskUpdate s tid b).err = none) :
    inv1 (taskUpdate s tid b).st := by
  unfold taskUpdate at hsucc ⊢
  by_cases hv : validObjectId tid = true
  case neg =>
    rw [if_pos hv] at hsucc ⊢
    exact h1
  case pos =>
    rw [if_neg (by simp [hv])] at hsucc ⊢
    by_cases hmiss : b.name = none ∨ b.deadline = none
    · rw [if_pos (by rcases hmiss with h | h <;> simp [h])] at hsucc ⊢
      exact h1
    · push_neg at hmiss
      rw [if_neg (by simp [hmiss.1, hmiss.2])] at hsucc ⊢
      cases hf : findTask s tid with
      | none =>
        dsimp only at hsucc ⊢
        exact h1
      | some task =>
        rw [hf] at hsucc
        dsimp only at hsucc ⊢
        obtain ⟨htmem, htid⟩ := findTask_mem hf
        by_cases hc : task.completed = true
        · rw [if_pos hc] at hsucc ⊢
          exact h1
        · rw [if_neg hc] at hsucc ⊢
          by_cases hidf : (match b.idField with
              | some i => decide (i ≠ "" ∧ i ≠ tid)
              | none => false) = true
          · rw [if_pos hidf] at hsucc ⊢
            exact h1
          · rw [if_neg hidf] at hsucc ⊢
            have hother : ∀ x ∈ s.tasks, x.id ≠ tid → x.assignedUser ≠ "" →
                x.completed = false → ∀ u ∈ s.users, u.id = x.assignedUser →
                x.id ∈ u.pendingTasks :=
              fun x hx _ hxa hxc u hu huid => h1 x hx hxa hxc u hu huid
            unfold taskUpdateAssign at hsucc ⊢
            cases hass : b.assignedUser with
            | none =>
              exact inv1_finish s tid b task false none _ hwf.2 htid hother
                (fun nu h => absurd h (by simp)) (fun h => absurd h (by simp))
            | some au =>
              rw [hass] at hsucc
              dsimp only at hsucc ⊢
              by_cases haeq : au = task.assignedUser
              · rw [if_pos haeq] at hsucc ⊢
                exact inv1_finish s tid b task false none _ hwf.2 htid hother
                  (fun nu h => absurd h (by simp)) (fun h => absurd h (by simp))
              · rw [if_neg haeq] at hsucc ⊢
                have hus1 : ((detachOld s task).users.map User.id).Nodup := by
                  rw [detachOld_ids]
                  exact hwf.2
                have hother1 : ∀ x ∈ (detachOld s task).tasks, x.id ≠ tid →
                    x.assignedUser ≠ "" → x.completed = false →
                    ∀ u ∈ (detachOld s task).users, u.id = x.assignedUser →
                    x.id ∈ u.pendingTasks := by
                  intro x hx hne hxa hxc u hu huid
                  rw [detachOld_tasks] at hx
                  obtain ⟨u0, hu0mem, hid0, hk0⟩ := detachOld_track s task hwf.2 u hu
                  exact hk0 x.id (fun hh => hne (hh.trans htid))
                    (h1 x hx hxa hxc u0 hu0mem (by rw [← hid0]; exact huid))
                by_cases hae : au = ""
                · rw [if_pos hae] at hsucc ⊢
                  exact inv1_finish (detachOld s task) tid b
                    ⟨task.id, task.name, task.description, task.deadline,
                      task.completed, "", "unassigned"⟩ true none _ hus1 htid hother1
                    (fun nu h => absurd h (by simp)) (fun _ _ => rfl)
                · rw [if_neg hae] at hsucc ⊢
                  cases hnu : findUser (detachOld s task) au with
                  | none =>
                    rw [hnu] at hsucc
                    simp at hsucc
                  | some nu =>
                    rw [hnu] at hsucc
                    dsimp only at hsucc ⊢
                    have hnuid : nu.id = au := (findUser_mem hnu).2
                    have hnaufact : ∀ nu', some nu = some nu' →
                        (⟨task.id, task.name, task.description, task.deadline,
                          task.completed, au, nu.name⟩ : Task).assignedUser = nu'.id ∧
                        findUser (detachOld s task) nu'.id = some nu' := by
                      intro nu' h
                      cases Option.some_injective _ h
                      refine ⟨hnuid.symm, ?_⟩
                      rw [hnuid]
                      exact hnu
                    cases hhint : b.assignedUserName with
                    | none =>
                      rw [hhint] at hsucc
                      dsimp only at hsucc ⊢
                      exact inv1_finish (detachOld s task) tid b
                        ⟨task.id, task.name, task.description, task.deadline,
                          task.completed, au, nu.name⟩ true (some nu) _ hus1 htid hother1
                        hnaufact (fun _ h => absurd h (by simp))
                    | some nm =>
                      rw [hhint] at hsucc
                      dsimp only at hsucc ⊢
                      by_cases hnm : nm = ""
                      · rw [if_pos hnm] at hsucc ⊢
                        exact inv1_finish (detachOld s task) tid b
                          ⟨task.id, task.name, task.description, task.deadline,
                            task.completed, au, nu.name⟩ true (some nu) _ hus1 htid hother1
                          hnaufact (fun _ h => absurd h (by simp))
                      · rw [if_neg hnm] at hsucc ⊢
                        by_cases hmatch : nu.name = nm
                        · rw [if_pos hmatch] at hsucc ⊢
                          have hnaufact2 : ∀ nu', some nu = some nu' →
                              (⟨task.id, task.name, task.description, task.deadline,
                                task.completed, au, nm⟩ : Task).assignedUser = nu'.id ∧
                              findUser (detachOld s task) nu'.id = some nu' := by
                            intro nu' h
                            cases Option.some_injective _ h
                            refine ⟨hnuid.symm, ?_⟩
                            rw [hnuid]
                            exact hnu
                          exact inv1_finish (detachOld s task) tid b
                            ⟨task.id, task.name, task.description, task.deadline,
                              task.completed, au, nm⟩ true (some nu) _ hus1 htid hother1
                            hnaufact2 (fun _ h => absurd h (by simp))
                        · rw [if_neg hmatch] at hsucc
                          simp at hsucc

/-- Invariant 1 is preserved by `POST /tasks` (also on failure: every
failing branch answers before writing). -/
theorem inv1_taskCreate (s : State) (f : String) (b : TaskPostBody)
    (h1 : inv1 s) : inv1 (taskCreate s f b).st := by
  unfold taskCreate inv1
  by_cases hmiss : b.name = "" ∨ b.deadline = ""
  · rw [if_pos hmiss]
    exact h1
  · rw [if_neg hmiss]
    by_cases hass : b.assignedUser = ""
    · rw [if_pos hass]
      intro x hx hxa hxc u hu huid
      dsimp only at hx hu
      simp only [List.mem_append, List.mem_singleton] at hx
      rcases hx with hx | hx
      · exact h1 x hx hxa hxc u hu huid
      · subst hx
        exact absurd rfl hxa
    · rw [if_neg hass]
      cases hfu : findUser s b.assignedUser with
      | none => exact h1
      | some v =>
        dsimp only
        have hassigned : ∀ fn, inv1 (taskCreateAssigned s f b v fn).st := by
          intro fn
          unfold taskCreateAssigned inv1
          dsimp only
          by_cases hcomp : b.completed = true
          · rw [if_pos hcomp]
            intro x hx hxa hxc u hu huid
            dsimp only at hx hu
            simp only [List.mem_append, List.mem_singleton] at hx
            rcases hx with hx | hx
            · exact h1 x hx hxa hxc u hu huid
            · subst hx
              rw [hcomp] at hxc
              exact absurd hxc (by simp)
          · rw [if_neg hcomp]
            intro x hx hxa hxc u hu huid
            simp only [saveUser, List.mem_map] at hu
            obtain ⟨u0, hu0, hue⟩ := hu
            simp only [saveUser, List.mem_append, List.mem_singleton] at hx
            obtain ⟨hvmem, hvid⟩ := findUser_mem hfu
            rcases hx with hx | hx
            · by_cases h0 : u0.id = v.id
              · rw [if_pos h0] at hue
                rw [← hue] at huid ⊢
                exact mem_addToSet_of_mem f (h1 x hx hxa hxc v hvmem huid)
              · rw [if_neg h0] at hue
                rw [← hue] at huid ⊢
                exact h1 x hx hxa hxc u0 hu0 huid
            · subst hx
              by_cases h0 : u0.id = v.id
              · rw [if_pos h0] at hue
                rw [← hue]
                exact mem_addToSet_self f v.pendingTasks
              · rw [if_neg h0] at hue
                rw [← hue] at huid
                exact absurd huid h0
        cases b.assignedUserName with
        | none => exact hassigned v.name
        | some nm =>
          dsimp only
          by_cases hnm : nm = ""
          · rw [if_pos hnm]
            exact hassigned v.name
          · rw [if_neg hnm]
            by_cases hmatch : v.name = nm
            · rw [if_pos hmatch]
              exact hassigned nm
            · rw [if_neg hmatch]
              exact h1

/-- Invariant 1 is preserved by `DELETE /tasks/:id`. -/
theorem inv1_taskDelete (s : State) (tid : String)
    (hwf : WF s) (h1 : inv1 s) : inv1 (taskDelete s tid).st := by
  unfold taskDelete inv1
  cases hf : findTask s tid with
  | none => exact h1
  | some task =>
    dsimp only
    intro x hx hxa hxc u hu huid
    rw [detachOld_tasks] at hx
    simp only [List.mem_filter, decide_eq_true_eq] at hx
    obtain ⟨hxmem, hxne⟩ := hx
    obtain ⟨u0, hu0, hid0, hk0⟩ := detachOld_track s task hwf.2 u hu
    exact hk0 x.id hxne (h1 x hxmem hxa hxc u0 hu0 (by rw [← hid0]; exact huid))

/-- Invariant 1 is preserved by `POST /users`, given the minted id is
fresh (in particular no existing task dangles a reference to it). -/
theorem inv1_userCreate (s : State) (f : String) (b : UserPostBody)
    (hfresh : freshId s f) (h1 : inv1 s) : inv1 (userCreate s f b).st := by
  unfold userCreate inv1
  by_cases hmiss : b.name = "" ∨ b.email = ""
  · rw [if_pos hmiss]
    exact h1
  · rw [if_neg hmiss]
    intro x hx hxa hxc u hu huid
    dsimp only at hx hu
    simp only [List.mem_append, List.mem_singleton] at hu
    rcases hu with hu | hu
    · exact h1 x hx hxa hxc u hu huid
    · subst hu
      exact absurd huid.symm (hfresh.2.1 x hx).2

/-- Invariant 1 is preserved by `DELETE /users/:id` (the cascade
unassigns every task that referenced the user). -/
theorem inv1_userDelete (s : State) (uid : String) (h1 : inv1 s) :
    inv1 (userDelete s uid).st := by
  unfold userDelete inv1
  cases hfu : findUser s uid with
  | none => exact h1
  | some du =>
    dsimp only
    intro x hx hxa hxc u hu huid
    simp only [List.mem_map] at hx
    obtain ⟨x0, hx0, hxe⟩ := hx
    simp only [List.mem_filter, decide_eq_true_eq] at hu
    obtain ⟨humem, hune⟩ := hu
    by_cases h0 : x0.assignedUser = uid
    · rw [if_pos h0] at hxe
      rw [← hxe] at hxa
      exact absurd rfl hxa
    · rw [if_neg h0] at hxe
      rw [← hxe] at hxa hxc huid ⊢
      exact h1 x0 hx0 hxa hxc u humem huid

/-- What a *successful* run of the user-update validation loop
guarantees: users untouched, every resulting task document is an old
one or an old unassigned one claimed for this user (its id then in the
processed list), and every processed id ends up in `validTasks`. -/
theorem procPending_ok (userId uname : String) :
    ∀ (l : List String) (s' : State) (acc : List String) (s1 : State) (vt : List String),
      procPending s' userId uname l acc = Except.ok (s1, vt) →
      s1.users = s'.users ∧
      (∀ doc ∈ s1.tasks, ∃ d0 ∈ s'.tasks,
        doc = d0 ∨ (doc.id ∈ l ∧ d0.assignedUser = "" ∧ doc = claimTask userId uname d0)) ∧
      (∀ y, y ∈ acc ∨ y ∈ l → y ∈ vt) := by
  intro l
  induction l with
  | nil =>
    intro s' acc s1 vt h
    unfold procPending at h
    injection h with hh
    obtain ⟨h1', h2'⟩ : s' = s1 ∧ acc = vt := ⟨congrArg Prod.fst hh, congrArg Prod.snd hh⟩
    subst h1'
    subst h2'
    refine ⟨rfl, fun doc hd => ⟨doc, hd, Or.inl rfl⟩, ?_⟩
    intro y hy
    rcases hy with hy | hy
    · exact hy
    · exact absurd hy (List.not_mem_nil y)
  | cons tid rest ih =>
    intro s' acc s1 vt h
    unfold procPending at h
    cases hft : findTask s' tid with
    | none =>
      rw [hft] at h
      exact absurd h (by simp)
    | some task =>
      rw [hft] at h
      dsimp only at h
      by_cases hcond : task.assignedUser ≠ "" ∧ task.assignedUser ≠ userId
      · rw [if_pos hcond] at h
        exact absurd h (by simp)
      · rw [if_neg hcond] at h
        obtain ⟨htaskmem, htaskid⟩ := findTask_mem hft
        by_cases hunass : task.assignedUser = ""
        · rw [if_pos hunass] at h
          obtain ⟨ihu, ihd, iha⟩ := ih (saveTask s' (claimTask userId uname task))
            (addToSet tid acc) s1 vt h
          refine ⟨ihu, ?_, ?_⟩
          · intro doc hd
            obtain ⟨d', hd', hcase⟩ := ihd doc hd
            simp only [saveTask, List.mem_map] at hd'
            obtain ⟨e0, he0, hee⟩ := hd'
            by_cases hid : e0.id = (claimTask userId uname task).id
            · rw [if_pos hid] at hee
              rcases hcase with hc | ⟨hcl, hcu, hcc⟩
              · refine ⟨task, htaskmem, Or.inr ⟨?_, hunass, ?_⟩⟩
                · rw [hc, ← hee]
                  have hgid : (claimTask userId uname task).id = tid := htaskid
                  rw [hgid]
                  exact List.mem_cons_self tid rest
                · rw [hc, ← hee]
              · refine ⟨task, htaskmem, Or.inr ⟨?_, hunass, ?_⟩⟩
                · rw [hcc, ← hee]
                  have hgid : (claimTask userId uname (claimTask userId uname task)).id = tid :=
                    htaskid
                  rw [hgid]
                  exact List.mem_cons_self tid rest
                · rw [hcc, ← hee]
                  rfl
            · rw [if_neg hid] at hee
              rcases hcase with hc | ⟨hcl, hcu, hcc⟩
              · exact ⟨e0, he0, Or.inl (hc.trans hee.symm)⟩
              · refine ⟨e0, he0, Or.inr ⟨List.mem_cons_of_mem tid hcl, ?_, ?_⟩⟩
                · rw [hee]
                  exact hcu
                · rw [hee]
                  exact hcc
          · intro y hy
            apply iha
            rcases hy with hy | hy
            · exact Or.inl (mem_addToSet_of_mem tid hy)
            · rcases List.mem_cons.mp hy with hy | hy
              · exact Or.inl (hy ▸ mem_addToSet_self tid acc)
              · exact Or.inr hy
        · rw [if_neg hunass] at h
          obtain ⟨ihu, ihd, iha⟩ := ih s' (addToSet tid acc) s1 vt h
          refine ⟨ihu, ?_, ?_⟩
          · intro doc hd
            obtain ⟨d0, hd0, hcase⟩ := ihd doc hd
            rcases hcase with hc | ⟨hcl, hcu, hcc⟩
            · exact ⟨d0, hd0, Or.inl hc⟩
            · exact ⟨d0, hd0, Or.inr ⟨List.mem_cons_of_mem tid hcl, hcu, hcc⟩⟩
          · intro y hy
            apply iha
            rcases hy with hy | hy
            · exact Or.inl (mem_addToSet_of_mem tid hy)
            · rcases List.mem_cons.mp hy with hy | hy
              · exact Or.inl (hy ▸ mem_addToSet_self tid acc)
              · exact Or.inr hy

/-- The `assignedUserName` bulk rewrite after a rename leaves invariant
1 intact (it changes no id, owner, completion flag or user list). -/
theorem inv1_rename (s3 : State) (uid n : String) (h : inv1 s3) :
    inv1 ⟨s3.tasks.map (fun t => if t.assignedUser = uid then
      ⟨t.id, t.name, t.description, t.deadline, t.completed, t.assignedUser, n⟩ else t),
      s3.users⟩ := by
  intro x hx hxa hxc u hu huid
  simp only [List.mem_map] at hx
  obtain ⟨x0, hx0, hxe⟩ := hx
  by_cases h0 : x0.assignedUser = uid
  · rw [if_pos h0] at hxe
    rw [← hxe] at hxa hxc huid ⊢
    exact h x0 hx0 hxa hxc u hu huid
  · rw [if_neg h0] at hxe
    rw [← hxe] at hxa hxc huid ⊢
    exact h x0 hx0 hxa hxc u hu huid

/-- Invariant 1 after the authoritative-list write of user update:
drop-and-unassign the removed ids, then persist the user with
`pendingTasks = validTasks`. -/
theorem inv1_userUpdate_core (s s1 : State) (uid uname uemail : String) (user : User)
    (l vt : List String)
    (humem : user ∈ s.users) (huid : user.id = uid) (h1 : inv1 s)
    (Lu : s1.users = s.users)
    (Ld : ∀ doc ∈ s1.tasks, ∃ d0 ∈ s.tasks,
      doc = d0 ∨ (doc.id ∈ l ∧ d0.assignedUser = "" ∧ doc = claimTask uid uname d0))
    (La : ∀ y ∈ l, y ∈ vt) :
    inv1 (saveUser ⟨s1.tasks.map (fun t =>
        if t.id ∈ user.pendingTasks.filter (fun x => x ∉ vt) ∧ t.assignedUser = uid
        then unassignPatch t else t), s1.users⟩
      ⟨user.id, uname, uemail, vt⟩) := by
  intro x hx hxa hxc u hu huid2
  simp only [saveUser, List.mem_map] at hx hu
  obtain ⟨doc, hdoc, hde⟩ := hx
  obtain ⟨u0, hu0, hue⟩ := hu
  rw [Lu] at hu0
  by_cases hdocmatch : doc.id ∈ user.pendingTasks.filter (fun x => x ∉ vt) ∧
      doc.assignedUser = uid
  · rw [if_pos hdocmatch] at hde
    rw [← hde] at hxa
    exact absurd rfl hxa
  · rw [if_neg hdocmatch] at hde
    rw [← hde] at hxa hxc huid2 ⊢
    by_cases h0 : u0.id = user.id
    · rw [if_pos h0] at hue
      rw [← hue] at huid2 ⊢
      have hdu : doc.assignedUser = uid := by
        rw [← huid2]
        exact huid
      by_cases hdl : doc.id ∈ l
      · exact La doc.id hdl
      · obtain ⟨d0, hd0, hcase⟩ := Ld doc hdoc
        rcases hcase with hc | ⟨hcl, _, _⟩
        · subst hc
          have hmemold : doc.id ∈ user.pendingTasks :=
            h1 doc hd0 hxa hxc user humem (huid.trans hdu.symm)
          have hnotrem : doc.id ∉ user.pendingTasks.filter (fun x => x ∉ vt) :=
            fun hin => hdocmatch ⟨hin, hdu⟩
          by_contra hnv
          exact hnotrem (List.mem_filter.mpr ⟨hmemold, by simpa using hnv⟩)
        · exact La doc.id hcl
    · rw [if_neg h0] at hue
      rw [← hue] at huid2 ⊢
      have hne : u0.id ≠ uid := fun h => h0 (h.trans huid.symm)
      obtain ⟨d0, hd0, hcase⟩ := Ld doc hdoc
      rcases hcase with hc | ⟨_, _, hcc⟩
      · subst hc
        exact h1 doc hd0 hxa hxc u0 hu0 huid2
      · rw [hcc] at huid2
        exact absurd huid2 hne

/-- Invariant 1 is preserved by a successful `PUT /users/:id`. -/
theorem inv1_userUpdate (s : State) (uid : String) (b : UserPutBody)
    (h1 : inv1 s) (hsucc : (userUpdate s uid b).err = none) :
    inv1 (userUpdate s uid b).st := by
  unfold userUpdate at hsucc ⊢
  cases hfu : findUser s uid with
  | none =>
    dsimp only
    exact h1
  | some user =>
    rw [hfu] at hsucc
    dsimp only at hsucc ⊢
    obtain ⟨humem, huid⟩ := findUser_mem hfu
    have hsaved : inv1 (saveUser s ⟨user.id, b.name.getD user.name,
        b.email.getD user.email, user.pendingTasks⟩) := by
      intro x hx hxa hxc u hu huid2
      simp only [saveUser, List.mem_map] at hu
      obtain ⟨u0, hu0, hue⟩ := hu
      by_cases h0 : u0.id = user.id
      · rw [if_pos h0] at hue
        rw [← hue] at huid2 ⊢
        exact h1 x hx hxa hxc user humem huid2
      · rw [if_neg h0] at hue
        rw [← hue] at huid2 ⊢
        exact h1 x hx hxa hxc u0 hu0 huid2
    cases hbp : b.pendingTasks with
    | none =>
      rw [hbp] at hsucc
      dsimp only at hsucc ⊢
      cases hbn : b.name with
      | none =>
        rw [hbn] at hsaved
        dsimp only
        exact hsaved
      | some n =>
        rw [hbn] at hsaved
        dsimp only
        by_cases hnn : n ≠ user.name
        · rw [if_pos hnn]
          exact inv1_rename _ uid n hsaved
        · rw [if_neg hnn]
          exact hsaved
    | some l =>
      rw [hbp] at hsucc
      dsimp only at hsucc ⊢
      cases hproc : procPending s uid (b.name.getD user.name) l [] with
      | error e =>
        rw [hproc] at hsucc
        obtain ⟨e1, serr⟩ := e
        simp at hsucc
      | ok p =>
        rw [hproc] at hsucc
        obtain ⟨s1, vt⟩ := p
        dsimp only at hsucc ⊢
        obtain ⟨Lu, Ld, La⟩ := procPending_ok uid (b.name.getD user.name) l s [] s1 vt hproc
        have hcore := inv1_userUpdate_core s s1 uid (b.name.getD user.name)
          (b.email.getD user.email) user l vt humem huid h1 Lu Ld
          (fun y hy => La y (Or.inr hy))
        cases hbn : b.name with
        | none =>
          rw [hbn] at hcore
          dsimp only
          exact hcore
        | some n =>
          rw [hbn] at hcore
          dsimp only
          by_cases hnn : n ≠ user.name
          · rw [if_pos hnn]
            exact inv1_rename _ uid n hcore
          · rw [if_neg hnn]
            exact hcore

/-! ### C1: invariant 1 holds after every successful operation -/

/-- C1: on a well-formed store (unique document ids) satisfying
invariant 1, after any of the engine's six operations (task
create/update/delete, user create/update/delete, with store-minted ids
fresh) completes successfully, every task with a non-empty
`assignedUser` and `completed = false` is listed in the `pendingTasks`
of every stored user carrying that id. -/
theorem engine_preserves_inv1 (s : State) (op : Op) (hwf : WF s) (h1 : inv1 s)
    (hok : opOK s op) (hsucc : (applyOp s op).err = none) :
    inv1 (applyOp s op).st := by
  cases op with
  | createTask f b => exact inv1_taskCreate s f b h1
  | updateTask i b => exact inv1_taskUpdate s i b hwf h1 hsucc
  | deleteTask i => exact inv1_taskDelete s i hwf h1
  | createUser f b => exact inv1_userCreate s f b hok h1
  | updateUser i b => exact inv1_userUpdate s i b h1 hsucc
  | deleteUser i => exact inv1_userDelete s i h1

/-- Witness for C1: completing Ann's task over `stA` (a store
satisfying the invariants) succeeds and leaves invariant 1 intact. -/
theorem engine_preserves_inv1_witness :
    WF stA ∧ inv1 stA ∧ opOK stA (Op.updateTask tidA putComplete) ∧
    (applyOp stA (Op.updateTask tidA putComplete)).err = none ∧
    inv1 (applyOp stA (Op.updateTask tidA putComplete)).st := by
  refine ⟨by decide, by decide, trivial, by decide, ?_⟩
  exact engine_preserves_inv1 stA (Op.updateTask tidA putComplete)
    (by decide) (by decide) trivial (by decide)

end TaskMgr
